import Mathlib

/-!
Verification of the EPEE decoder core of `monero-oxide` (crate `monero-oxide/epee`).

This file shallowly embeds the decoder:
* the byte source for `&[u8]` (`epee/src/io.rs`) — a byte sequence is a `List Nat`
  consumed from the front; fallible reads return the outcome *and* the reader's
  position afterwards, mirroring the `&mut` reader whose cursor survives errors;
* the EPEE variable-width integer reader `read_varint` and string reader `read_str`;
* the depth-bounded traversal stack (`epee/src/stack.rs`);
* the transition function `single_step` and the bulk skip `step` (`epee/src/parser.rs`);
* the decoder root `Epee` and the cursor operations of `EpeeEntry`,
  `FieldIterator` and `ArrayIterator` (`epee/src/lib.rs`).

Machine integers: the Rust code uses `u8`/`u64`/`usize` (64-bit target); all values
read stay below `2 ^ 64` (the widest accumulation is `read_varint`, which ors at
most eight bytes shifted by at most 56 bits), and `usize::try_from(u64)` on the
64-bit target never fails, so plain `Nat` models them exactly and the
`usize::try_from(..).map_err(..)` conversions are identities.
-/

/-- Errors incurred when decoding (source: `EpeeError`, `epee/src/lib.rs`). -/
inductive EpeeError where
  | InternalError
  | InvalidHeader
  | InvalidVersion (version : Option Nat)
  | Short (n : Nat)
  | UnrecognizedType
  | EmptyKey
  | DepthLimitExceeded
  | TypeError
  | EpeeReuse
deriving DecidableEq

/-- A byte sequence (`&[u8]`); each element is one byte value `< 256`. -/
abbrev Bytes := List Nat

/-- Source `<&[u8] as BytesLike>::read_bytes` (`epee/src/io.rs`): return the next
`n` bytes and the advanced reader, or `Short n` leaving the reader unmoved. -/
def read_bytes (n : Nat) (enc : Bytes) : Except EpeeError Bytes × Bytes :=
  if enc.length < n then (.error (.Short n), enc)
  else (.ok (enc.take n), enc.drop n)

/-- Source `<&[u8] as BytesLike>::read_into_slice`: copy the next `slice.len()`
bytes out; behaviourally `read_bytes` over the destination length. -/
def read_into_slice (n : Nat) (enc : Bytes) : Except EpeeError Bytes × Bytes :=
  read_bytes n enc

/-- Source `BytesLike::read_byte`: the one-byte specialization of `read_into_slice`. -/
def read_byte (enc : Bytes) : Except EpeeError Nat × Bytes :=
  match read_into_slice 1 enc with
  | (.ok buf, enc') => (.ok (buf.getD 0 0), enc')
  | (.error e, enc') => (.error e, enc')

/-- Source `BytesLike::advance::<N>`: discard the next `n` bytes. -/
def advance (n : Nat) (enc : Bytes) : Except EpeeError Unit × Bytes :=
  match read_bytes n enc with
  | (.ok _, enc') => (.ok (), enc')
  | (.error e, enc') => (.error e, enc')

/-- The `for i in 1 .. len` accumulation loop of `read_varint` (`epee/src/io.rs`):
`count` is the number of bytes still to read, `i` the running byte index. -/
def varint_loop (vi : Nat) (i : Nat) : Nat → Bytes → Except EpeeError Nat × Bytes
  | 0, enc => (.ok vi, enc)
  | count + 1, enc =>
    match read_byte enc with
    | (.error e, enc') => (.error e, enc')
    | (.ok b, enc') => varint_loop (vi ||| (b <<< (i * 8))) (i + 1) count enc'

/-- The `let len` table of `read_varint` (`epee/src/io.rs`): the total encoded
width selected by the low two bits of the first byte. -/
def varint_width (c : Nat) : Nat :=
  match c with
  | 0 => 1
  | 1 => 2
  | 2 => 4
  | _ => 8

/-- Source `read_varint` (`epee/src/io.rs`): the low two bits of the first byte
select the total encoded width (1, 2, 4 or 8 bytes); the bytes are assembled
little-endian and the result is shifted right by two. -/
def read_varint (enc : Bytes) : Except EpeeError Nat × Bytes :=
  match read_byte enc with
  | (.error e, enc') => (.error e, enc')
  | (.ok vi_start, enc') =>
    let len : Nat := varint_width (vi_start &&& 3)
    match varint_loop vi_start 1 (len - 1) enc' with
    | (.error e, enc'') => (.error e, enc'')
    | (.ok vi, enc'') => (.ok (vi >>> 2), enc'')

/-- Source `String<'encoding, B>` (`epee/src/io.rs`) at `B = &[u8]`: a view of the
bytes that were read (for slices the externally tracked length is `()` and
`len()` is the sub-slice's length). -/
structure EpeeString where
  bytes : Bytes
deriving DecidableEq

/-- Source `String::len`. -/
def EpeeString.len (s : EpeeString) : Nat := s.bytes.length

/-- Source `String::is_empty`. -/
def EpeeString.is_empty (s : EpeeString) : Bool := s.bytes.length = 0

/-- Source `read_str` (`epee/src/io.rs`): a varint length prefix followed by that
many raw bytes (`usize::try_from` is the identity on the 64-bit target). -/
def read_str (enc : Bytes) : Except EpeeError EpeeString × Bytes :=
  match read_varint enc with
  | (.error e, enc') => (.error e, enc')
  | (.ok len, enc') =>
    match read_bytes len enc' with
    | (.error e, enc'') => (.error e, enc'')
    | (.ok bs, enc'') => (.ok ⟨bs⟩, enc'')

/-- Source enum `Type` (`epee/src/parser.rs`); named `Ty` because `Type` is
reserved in Lean. Discriminants 1 ..= 12 are recorded by `Ty.code`. -/
inductive Ty where
  | Int64
  | Int32
  | Int16
  | Int8
  | Uint64
  | Uint32
  | Uint16
  | Uint8
  | Double
  | String
  | Bool
  | Object
deriving DecidableEq

/-- The Rust discriminant of each `Type` variant (`Int64 = 1`, ..., `Object = 12`). -/
def Ty.code : Ty → Nat
  | .Int64 => 1
  | .Int32 => 2
  | .Int16 => 3
  | .Int8 => 4
  | .Uint64 => 5
  | .Uint32 => 6
  | .Uint16 => 7
  | .Uint8 => 8
  | .Double => 9
  | .String => 10
  | .Bool => 11
  | .Object => 12

/-- Source enum `TypeOrEntry` (`epee/src/parser.rs`): a stack slot is either an
EPEE-defined type or the marker for one pending field of an open object. -/
inductive TypeOrEntry where
  | Type (t : Ty)
  | Entry
deriving DecidableEq

/-- Source `Type::read` (`epee/src/parser.rs`): one tag byte whose bit 7
(`Array::Array as u8 = 1 <<< 7`) is the array flag and whose low seven bits
select the type; when the array bit is set a varint element count follows,
otherwise the count is one. -/
def Ty.read (enc : Bytes) : Except EpeeError (Ty × Nat) × Bytes :=
  match read_byte enc with
  | (.error e, enc') => (.error e, enc')
  | (.ok kindByte, enc') =>
    let array := kindByte &&& 128
    let kindN := kindByte &&& 127
    let kind? : Option Ty :=
      match kindN with
      | 1 => some .Int64
      | 2 => some .Int32
      | 3 => some .Int16
      | 4 => some .Int8
      | 5 => some .Uint64
      | 6 => some .Uint32
      | 7 => some .Uint16
      | 8 => some .Uint8
      | 9 => some .Double
      | 10 => some .String
      | 11 => some .Bool
      | 12 => some .Object
      | _ => none
    match kind? with
    | none => (.error .UnrecognizedType, enc')
    | some kind =>
      if array ≠ 0 then
        match read_varint enc' with
        | (.error e, enc'') => (.error e, enc'')
        | (.ok len, enc'') => (.ok (kind, len), enc'')
      else
        (.ok (kind, 1), enc')

/-- Source `read_key` (`epee/src/parser.rs`): one length byte (zero is the
`EmptyKey` error) followed by that many raw key bytes. -/
def read_key (enc : Bytes) : Except EpeeError EpeeString × Bytes :=
  match read_byte enc with
  | (.error e, enc') => (.error e, enc')
  | (.ok len, enc') =>
    if len = 0 then (.error .EmptyKey, enc')
    else
      match read_bytes len enc' with
      | (.error e, enc'') => (.error e, enc'')
      | (.ok bs, enc'') => (.ok ⟨bs⟩, enc'')

/-- Source `EPEE_LIB_MAX_OBJECT_DEPTH` (`epee/src/stack.rs`): the reference
implementation's published depth limit. -/
def EPEE_LIB_MAX_OBJECT_DEPTH : Nat := 100

/-- Source `MAX_OBJECT_DEPTH` (`epee/src/stack.rs`): the published limit plus
slack for counting differences. -/
def MAX_OBJECT_DEPTH : Nat := EPEE_LIB_MAX_OBJECT_DEPTH + 2

/-- Source struct `Stack` (`epee/src/stack.rs`). The source stores `types` as
`PackedTypes`, two 4-bit `TypeOrEntry` codes per byte, purely to shrink the
struct; `PackedTypes.get`/`set` implement plain array indexing over the codes
(its `set` writes only codes 0 ..= 12, `get` panics on the never-written codes
13 ..= 15), so we model the array of `TypeOrEntry` values directly.  `amounts`
is `[NonZero<usize>; MAX_OBJECT_DEPTH]` in the source; we model the entries as
`Nat` and prove non-zeroness of the live slots as an invariant. -/
structure Stack where
  types : List TypeOrEntry
  amounts : List Nat
  depth : Nat
deriving DecidableEq

/-- Source `Stack::root_object`: zero-initialized arrays (the zero code is
`TypeOrEntry::Entry`, the zero amount is `NonZero::MIN = 1`) with one slot,
kind `Object`, amount 1. -/
def Stack.root_object : Stack :=
  { types := (List.replicate MAX_OBJECT_DEPTH TypeOrEntry.Entry).set 0 (.Type .Object)
    amounts := (List.replicate MAX_OBJECT_DEPTH 1).set 0 1
    depth := 1 }

/-- Source `Stack::peek`: the top slot, if any. -/
def Stack.peek (s : Stack) : Option (TypeOrEntry × Nat) :=
  match s.depth with
  | 0 => none
  | d + 1 => some (s.types.getD d .Entry, s.amounts.getD d 1)

/-- Source `Stack::pop`: decrement the top slot's remaining amount, dropping the
slot (decrementing `depth`) when the amount reaches zero; return the slot's
kind, or `none` at depth zero. -/
def Stack.pop (s : Stack) : Option TypeOrEntry × Stack :=
  match s.depth with
  | 0 => (none, s)
  | d + 1 =>
    let kind := s.types.getD d .Entry
    let amount := s.amounts.getD d 1 - 1
    if amount = 0 then (some kind, { s with depth := d })
    else (some kind, { s with amounts := s.amounts.set d amount })

/-- Source `Stack::push`: refuse with `DepthLimitExceeded` when `depth` already
equals `MAX_OBJECT_DEPTH`; otherwise, with zero amount do nothing, and with a
non-zero amount write the slot at the current depth and grow by one.  (Note the
source performs the depth check *before* the zero-amount early return.) -/
def Stack.push (s : Stack) (kind : TypeOrEntry) (amount : Nat) : Except EpeeError Stack :=
  if s.depth = MAX_OBJECT_DEPTH then .error .DepthLimitExceeded
  else if amount = 0 then .ok s
  else
    .ok { s with
          types := s.types.set s.depth kind
          amounts := s.amounts.set s.depth amount
          depth := s.depth + 1 }

/-- Source enum `SingleStepResult` (`epee/src/parser.rs`). -/
inductive SingleStepResult where
  | Object (fields : Nat)
  | Entry (key : EpeeString) (kind : Ty) (len : Nat)
  | Unit
deriving DecidableEq

/-- One scalar arm of `single_step`: `encoding.advance::<W>()?` followed by the
`Unit` result; each of the ten scalar branches of the source is this shape at
its type's width. -/
def scalar_step (w : Nat) (s' : Stack) (enc : Bytes) :
    Except EpeeError (Option SingleStepResult) × Stack × Bytes :=
  match advance w enc with
  | (.ok _, enc') => (.ok (some .Unit), s', enc')
  | (.error e, enc') => (.error e, s', enc')

/-- Source `Stack::single_step` (`epee/src/parser.rs`): pop the top scheduled
kind and execute exactly one unit of work.  The returned stack and bytes are
the state after the call even on error, mirroring the `&mut` parameters.  The
final two lines of the `TypeOrEntry::Entry` arm are elided in the source
(`/* Lines 178-180 omitted */`); that part is modelled from the spec: "read a
key ..., then read a type tag + optional array-length ...; push that `Type`
with the resulting count as the new top slot; produce `Entry{ key, kind, len }`". -/
def Stack.single_step (s : Stack) (enc : Bytes) :
    Except EpeeError (Option SingleStepResult) × Stack × Bytes :=
  match s.pop with
  | (none, s') => (.ok none, s', enc)
  | (some kind, s') =>
    match kind with
    | .Type .Int64 => scalar_step 8 s' enc
    | .Type .Int32 => scalar_step 4 s' enc
    | .Type .Int16 => scalar_step 2 s' enc
    | .Type .Int8 => scalar_step 1 s' enc
    | .Type .Uint64 => scalar_step 8 s' enc
    | .Type .Uint32 => scalar_step 4 s' enc
    | .Type .Uint16 => scalar_step 2 s' enc
    | .Type .Uint8 => scalar_step 1 s' enc
    | .Type .Double => scalar_step 8 s' enc
    | .Type .String =>
      match read_str enc with
      | (.ok _, enc') => (.ok (some .Unit), s', enc')
      | (.error e, enc') => (.error e, s', enc')
    | .Type .Bool => scalar_step 1 s' enc
    | .Type .Object =>
      match read_varint enc with
      | (.error e, enc') => (.error e, s', enc')
      | (.ok fields, enc') =>
        match s'.push .Entry fields with
        | .error e => (.error e, s', enc')
        | .ok s'' => (.ok (some (.Object fields)), s'', enc')
    | .Entry =>
      match read_key enc with
      | (.error e, enc') => (.error e, s', enc')
      | (.ok key, enc') =>
        match Ty.read enc' with
        | (.error e, enc'') => (.error e, s', enc'')
        | (.ok (kind, len), enc'') =>
          match s'.push (.Type kind) len with
          | .error e => (.error e, s', enc'')
          | .ok s'' => (.ok (some (.Entry key kind len)), s'', enc'')

/-- The do-while loop of `Stack::step` (`epee/src/parser.rs`): run `single_step`
then repeat until the depth equals `stop`, propagating errors.  The source loop
has no fuel; `fuel` only bounds the unfolding here and `none` marks running out
of it, which `stepO_isSome` below proves cannot happen at fuel
`enc.length + 1`. -/
def Stack.stepLoopF (fuel : Nat) (stop : Nat) (s : Stack) (enc : Bytes) :
    Option (Except EpeeError Unit × Stack × Bytes) :=
  match fuel with
  | 0 => none
  | fuel + 1 =>
    match s.single_step enc with
    | (.error e, s', enc') => some (.error e, s', enc')
    | (.ok _, s', enc') =>
      if s'.depth = stop then some (.ok (), s', enc')
      else Stack.stepLoopF fuel stop s' enc'

/-- Source `Stack::step` (`epee/src/parser.rs`): peek the top item; if its
remaining amount exceeds one, loop until the depth returns to its current
value, otherwise until it returns to one below; `none` would mean the loop ran
past `enc.length + 1` iterations, which `stepO_isSome` refutes. -/
def Stack.stepO (s : Stack) (enc : Bytes) :
    Option (Except EpeeError (Option Unit) × Stack × Bytes) :=
  match s.peek with
  | none => some (.ok none, s, enc)
  | some (_kind, len) =>
    let stop := if 1 < len then s.depth else s.depth - 1
    match Stack.stepLoopF (enc.length + 1) stop s enc with
    | none => none
    | some (.error e, s', enc') => some (.error e, s', enc')
    | some (.ok (), s', enc') => some (.ok (some ()), s', enc')

/-- Total wrapper for `Stack::step`; the default arm is dead code by
`stepO_isSome`. -/
def Stack.step (s : Stack) (enc : Bytes) :
    Except EpeeError (Option Unit) × Stack × Bytes :=
  (s.stepO enc).getD (.error .InternalError, s, enc)

/-- The EPEE header bytes (`HEADER`, `epee/src/lib.rs`):
`b"\x01\x11\x01\x01\x01\x01\x02\x01"`. -/
def HEADER : Bytes := [1, 17, 1, 1, 1, 1, 2, 1]

/-- The supported EPEE version (`VERSION`, `epee/src/lib.rs`). -/
def VERSION : Nat := 1

/-- Source struct `Epee` (`epee/src/lib.rs`): the decoder owns the byte source
(`current_encoding_state`), the traversal stack and the sticky error. -/
structure Epee where
  current_encoding_state : Bytes
  stack : Stack
  error : Option EpeeError
deriving DecidableEq

/-- Source struct `EpeeEntry` (`epee/src/lib.rs`) minus its `root` borrow: the
borrow of the decoder cannot be embedded, so every cursor operation takes the
decoder state explicitly and returns the updated one.  Cursors are only ever
constructed with `root = Some(..)` and consume themselves on use, so the
`self.root.take().ok_or(InternalError)` in the source always succeeds at the
modelled call sites. -/
structure EpeeEntry where
  kind : Ty
  len : Nat
deriving DecidableEq

/-- Source `Epee::new` (`epee/src/lib.rs`): read and check the 8 header bytes,
then read and check the version byte (reading it as an `Option` via `.ok()`). -/
def Epee.new (encoding : Bytes) : Except EpeeError Epee :=
  match read_into_slice HEADER.length encoding with
  | (.error e, _) => .error e
  | (.ok present_header, enc') =>
    if present_header ≠ HEADER then .error .InvalidHeader
    else
      let version : Option Nat :=
        match read_byte enc' with
        | (.ok v, _) => some v
        | (.error _, _) => none
      if version ≠ some VERSION then .error (.InvalidVersion version)
      else
        match read_byte enc' with
        | (.ok _, enc'') =>
          .ok { current_encoding_state := enc''
                stack := Stack.root_object
                error := none }
        | (.error _, enc'') =>
          .ok { current_encoding_state := enc''
                stack := Stack.root_object
                error := none }

/-- Source `Epee::entry` (`epee/src/lib.rs`): hand out the root entry exactly
once; a second request (depth no longer 1) or a stored error is `EpeeReuse`. -/
def Epee.entry (e : Epee) : Except EpeeError EpeeEntry × Epee :=
  if e.stack.depth ≠ 1 ∨ e.error.isSome then (.error .EpeeReuse, e)
  else (.ok { kind := .Object, len := 1 }, e)

/-- The loop shared by the three `Drop` impls (`EpeeEntry`, `FieldIterator`,
`ArrayIterator`, `epee/src/lib.rs`): while no error is stored and `len` is not
zero, run `Stack::step`, store its error outcome (`.err()`, which clears the
field on success) and decrement `len`. -/
def dropSteps : Nat → Epee → Epee
  | 0, e => e
  | n + 1, e =>
    match e.error with
    | some _ => e
    | none =>
      match e.stack.step e.current_encoding_state with
      | (r, s', enc') =>
        dropSteps n
          { current_encoding_state := enc'
            stack := s'
            error := match r with | .ok _ => none | .error er => some er }

/-- Source `FieldIterator::next` (`epee/src/lib.rs`): return the stored error if
any; yield `none` once the count is exhausted (the count is decremented via
`checked_sub` before the step); otherwise run one `single_step`, expecting an
`Entry` result.  The iterator state is its remaining count (`len`); the result
carries the updated count and decoder. -/
def FieldIterator.next (len : Nat) (e : Epee) :
    Option (Except EpeeError (EpeeString × EpeeEntry)) × Nat × Epee :=
  match e.error with
  | some error => (some (.error error), len, e)
  | none =>
    match len with
    | 0 => (none, 0, e)
    | len + 1 =>
      match e.stack.single_step e.current_encoding_state with
      | (.ok (some (.Entry key kind elen)), s', enc') =>
        (some (.ok (key, { kind := kind, len := elen })), len,
          { e with stack := s', current_encoding_state := enc' })
      | (.ok _, s', enc') =>
        (some (.error .InternalError), len,
          { e with stack := s', current_encoding_state := enc' })
      | (.error er, s', enc') =>
        (some (.error er), len,
          { e with stack := s', current_encoding_state := enc' })

/-- Source `ArrayIterator::next` (`epee/src/lib.rs`): return the stored error if
any; yield `none` once exhausted; otherwise yield a fresh entry of the array's
kind with `len = 1` (no I/O happens here). -/
def ArrayIterator.next (kind : Ty) (len : Nat) (e : Epee) :
    Option (Except EpeeError EpeeEntry) × Nat × Epee :=
  match e.error with
  | some err => (some (.error err), len, e)
  | none =>
    match len with
    | 0 => (none, 0, e)
    | len + 1 => (some (.ok { kind := kind, len := 1 }), len, e)

/-- Source `EpeeEntry::fields` (`epee/src/lib.rs`): after the sticky-error check,
valid only for `kind == Object` with `len == 1`; one `single_step` reads the
field count, which bounds the returned `FieldIterator` (represented by that
count). -/
def EpeeEntry.fields (ent : EpeeEntry) (e : Epee) : Except EpeeError Nat × Epee :=
  match e.error with
  | some err => (.error err, e)
  | none =>
    if ent.kind ≠ .Object ∨ ent.len ≠ 1 then (.error .TypeError, e)
    else
      match e.stack.single_step e.current_encoding_state with
      | (.ok (some (.Object fields)), s', enc') =>
        (.ok fields, { e with stack := s', current_encoding_state := enc' })
      | (.ok _, s', enc') =>
        (.error .InternalError, { e with stack := s', current_encoding_state := enc' })
      | (.error er, s', enc') =>
        (.error er, { e with stack := s', current_encoding_state := enc' })

/-- Source `EpeeEntry::iterate` (`epee/src/lib.rs`): after the sticky-error
check, wrap the entry as an `ArrayIterator` (its `(kind, len)` pair); no I/O. -/
def EpeeEntry.iterate (ent : EpeeEntry) (e : Epee) : Except EpeeError (Ty × Nat) × Epee :=
  match e.error with
  | some err => (.error err, e)
  | none => (.ok (ent.kind, ent.len), e)

/-- Source `EpeeEntry::to_primitive` (`epee/src/lib.rs`): `TypeError` unless the
entry is exactly one value of the requested kind (checked *before* the sticky
error); then pop the scheduled slot and read the primitive's width in bytes. -/
def EpeeEntry.to_primitive (ent : EpeeEntry) (kind : Ty) (width : Nat) (e : Epee) :
    Except EpeeError Bytes × Epee :=
  if ent.kind ≠ kind ∨ ent.len ≠ 1 then (.error .TypeError, e)
  else
    match e.error with
    | some error => (.error error, e)
    | none =>
      let e' := { e with stack := (e.stack.pop).2 }
      match read_into_slice width e'.current_encoding_state with
      | (.ok slice, enc') => (.ok slice, { e' with current_encoding_state := enc' })
      | (.error er, enc') => (.error er, { e' with current_encoding_state := enc' })

/-- Little-endian byte-list value, as assembled by `uN::from_le_bytes`. -/
def leNat : Bytes → Nat
  | [] => 0
  | b :: rest => b + 256 * leNat rest

/-- Two's-complement reinterpretation of a `width`-bit unsigned value, as done
by `iN::from_le_bytes`. -/
def toSigned (width : Nat) (n : Nat) : Int :=
  if n < 2 ^ (width - 1) then (n : Int) else (n : Int) - 2 ^ width

/-- Source `EpeeEntry::to_i64`. -/
def EpeeEntry.to_i64 (ent : EpeeEntry) (e : Epee) : Except EpeeError Int × Epee :=
  match ent.to_primitive .Int64 8 e with
  | (.ok buf, e') => (.ok (toSigned 64 (leNat buf)), e')
  | (.error er, e') => (.error er, e')

/-- Source `EpeeEntry::to_i32`. -/
def EpeeEntry.to_i32 (ent : EpeeEntry) (e : Epee) : Except EpeeError Int × Epee :=
  match ent.to_primitive .Int32 4 e with
  | (.ok buf, e') => (.ok (toSigned 32 (leNat buf)), e')
  | (.error er, e') => (.error er, e')

/-- Source `EpeeEntry::to_i16`. -/
def EpeeEntry.to_i16 (ent : EpeeEntry) (e : Epee) : Except EpeeError Int × Epee :=
  match ent.to_primitive .Int16 2 e with
  | (.ok buf, e') => (.ok (toSigned 16 (leNat buf)), e')
  | (.error er, e') => (.error er, e')

/-- Source `EpeeEntry::to_i8`. -/
def EpeeEntry.to_i8 (ent : EpeeEntry) (e : Epee) : Except EpeeError Int × Epee :=
  match ent.to_primitive .Int8 1 e with
  | (.ok buf, e') => (.ok (toSigned 8 (leNat buf)), e')
  | (.error er, e') => (.error er, e')

/-- Source `EpeeEntry::to_u64`. -/
def EpeeEntry.to_u64 (ent : EpeeEntry) (e : Epee) : Except EpeeError Nat × Epee :=
  match ent.to_primitive .Uint64 8 e with
  | (.ok buf, e') => (.ok (leNat buf), e')
  | (.error er, e') => (.error er, e')

/-- Source `EpeeEntry::to_u32`. -/
def EpeeEntry.to_u32 (ent : EpeeEntry) (e : Epee) : Except EpeeError Nat × Epee :=
  match ent.to_primitive .Uint32 4 e with
  | (.ok buf, e') => (.ok (leNat buf), e')
  | (.error er, e') => (.error er, e')

/-- Source `EpeeEntry::to_u16`. -/
def EpeeEntry.to_u16 (ent : EpeeEntry) (e : Epee) : Except EpeeError Nat × Epee :=
  match ent.to_primitive .Uint16 2 e with
  | (.ok buf, e') => (.ok (leNat buf), e')
  | (.error er, e') => (.error er, e')

/-- Source `EpeeEntry::to_u8` (returns `buf[0]`). -/
def EpeeEntry.to_u8 (ent : EpeeEntry) (e : Epee) : Except EpeeError Nat × Epee :=
  match ent.to_primitive .Uint8 1 e with
  | (.ok buf, e') => (.ok (buf.getD 0 0), e')
  | (.error er, e') => (.error er, e')

/-- Source `EpeeEntry::to_f64`; `f64::from_le_bytes` only reinterprets the eight
bytes, so the result is modelled as the 64-bit pattern assembled little-endian. -/
def EpeeEntry.to_f64 (ent : EpeeEntry) (e : Epee) : Except EpeeError Nat × Epee :=
  match ent.to_primitive .Double 8 e with
  | (.ok buf, e') => (.ok (leNat buf), e')
  | (.error er, e') => (.error er, e')

/-- Source `EpeeEntry::to_bool` (`buf[0] != 0`). -/
def EpeeEntry.to_bool (ent : EpeeEntry) (e : Epee) : Except EpeeError Bool × Epee :=
  match ent.to_primitive .Bool 1 e with
  | (.ok buf, e') => (.ok (buf.getD 0 0 ≠ 0), e')
  | (.error er, e') => (.error er, e')

/-- Source `EpeeEntry::to_str` (`epee/src/lib.rs`): `TypeError` unless exactly
one `String` (checked before the sticky error); then pop the slot and
`read_str`. -/
def EpeeEntry.to_str (ent : EpeeEntry) (e : Epee) : Except EpeeError EpeeString × Epee :=
  if ent.kind ≠ .String ∨ ent.len ≠ 1 then (.error .TypeError, e)
  else
    match e.error with
    | some error => (.error error, e)
    | none =>
      let e' := { e with stack := (e.stack.pop).2 }
      match read_str e'.current_encoding_state with
      | (.ok str, enc') => (.ok str, { e' with current_encoding_state := enc' })
      | (.error er, enc') => (.error er, { e' with current_encoding_state := enc' })

/-- Source `EpeeEntry::to_fixed_len_str`: `to_str`, then `TypeError` unless the
decoded length is exactly `len`. -/
def EpeeEntry.to_fixed_len_str (ent : EpeeEntry) (len : Nat) (e : Epee) :
    Except EpeeError EpeeString × Epee :=
  match ent.to_str e with
  | (.ok str, e') => if str.len ≠ len then (.error .TypeError, e') else (.ok str, e')
  | (.error er, e') => (.error er, e')

mutual
/-- Modelled from the spec: the reference full read.  `RefSkip t enc enc'` holds
when a recursive-descent reader that fully and explicitly reads one value of
kind `t` (spec §4.4: scalars advance their fixed width, strings read a
varint length plus that many bytes, objects read a varint field count then that
many entries, an entry reads a key, a type tag with its count, then that many
values of the tagged type) moves the byte source from `enc` to `enc'`. -/
inductive RefSkip : TypeOrEntry → Bytes → Bytes → Prop where
  | int64 : ∀ {enc enc'}, advance 8 enc = (.ok (), enc') → RefSkip (.Type .Int64) enc enc'
  | int32 : ∀ {enc enc'}, advance 4 enc = (.ok (), enc') → RefSkip (.Type .Int32) enc enc'
  | int16 : ∀ {enc enc'}, advance 2 enc = (.ok (), enc') → RefSkip (.Type .Int16) enc enc'
  | int8 : ∀ {enc enc'}, advance 1 enc = (.ok (), enc') → RefSkip (.Type .Int8) enc enc'
  | uint64 : ∀ {enc enc'}, advance 8 enc = (.ok (), enc') → RefSkip (.Type .Uint64) enc enc'
  | uint32 : ∀ {enc enc'}, advance 4 enc = (.ok (), enc') → RefSkip (.Type .Uint32) enc enc'
  | uint16 : ∀ {enc enc'}, advance 2 enc = (.ok (), enc') → RefSkip (.Type .Uint16) enc enc'
  | uint8 : ∀ {enc enc'}, advance 1 enc = (.ok (), enc') → RefSkip (.Type .Uint8) enc enc'
  | double : ∀ {enc enc'}, advance 8 enc = (.ok (), enc') → RefSkip (.Type .Double) enc enc'
  | bool : ∀ {enc enc'}, advance 1 enc = (.ok (), enc') → RefSkip (.Type .Bool) enc enc'
  | str : ∀ {enc enc' s}, read_str enc = (.ok s, enc') → RefSkip (.Type .String) enc enc'
  | object : ∀ {enc enc1 enc' c},
      read_varint enc = (.ok c, enc1) →
      RefSkipMany .Entry c enc1 enc' →
      RefSkip (.Type .Object) enc enc'
  | entry : ∀ {enc enc1 enc2 enc' key k l},
      read_key enc = (.ok key, enc1) →
      Ty.read enc1 = (.ok (k, l), enc2) →
      RefSkipMany (.Type k) l enc2 enc' →
      RefSkip .Entry enc enc'

/-- Modelled from the spec: `n` back-to-back reference full reads of kind `t`. -/
inductive RefSkipMany : TypeOrEntry → Nat → Bytes → Bytes → Prop where
  | nil : ∀ {t enc}, RefSkipMany t 0 enc enc
  | cons : ∀ {t n enc enc1 enc'},
      RefSkip t enc enc1 →
      RefSkipMany t n enc1 enc' →
      RefSkipMany t (n + 1) enc enc'
end

/-- Modelled from the spec: reference full reads of a list of pending slots,
innermost (stack top) first. -/
inductive RefSkipSlots : List (TypeOrEntry × Nat) → Bytes → Bytes → Prop where
  | nil : ∀ {enc}, RefSkipSlots [] enc enc
  | cons : ∀ {t n rest enc enc1 enc'},
      RefSkipMany t n enc enc1 →
      RefSkipSlots rest enc1 enc' →
      RefSkipSlots ((t, n) :: rest) enc enc'

/-- The stack slots strictly above level `stop` and strictly below level `d`,
top (level `d - 1`) first, read off the two arrays. -/
def suffixAux (types : List TypeOrEntry) (amounts : List Nat) (stop : Nat) :
    Nat → List (TypeOrEntry × Nat)
  | 0 => []
  | d + 1 =>
    if d + 1 ≤ stop then []
    else (types.getD d .Entry, amounts.getD d 1) :: suffixAux types amounts stop d

/-- The pending slots of `s` above level `stop`, top first. -/
def Stack.suffix (s : Stack) (stop : Nat) : List (TypeOrEntry × Nat) :=
  suffixAux s.types s.amounts stop s.depth

/-- Well-formedness maintained by the decoder for every stack it builds: the
arrays have their fixed size, the depth is within bounds, and every live slot
has a non-zero amount (`NonZero<usize>` in the source). -/
def Stack.WF (s : Stack) : Prop :=
  s.types.length = MAX_OBJECT_DEPTH ∧
  s.amounts.length = MAX_OBJECT_DEPTH ∧
  s.depth ≤ MAX_OBJECT_DEPTH ∧
  ∀ i, i < s.depth → 1 ≤ s.amounts.getD i 0

theorem getD_set_self {α : Type} {l : List α} {i : Nat} {a d : α} (h : i < l.length) :
    (l.set i a).getD i d = a := by
  simp [List.getD, List.getElem?_set_eq_of_lt a h]

theorem getD_set_ne {α : Type} {l : List α} {i j : Nat} {a d : α} (h : i ≠ j) :
    (l.set i a).getD j d = l.getD j d := by
  simp [List.getD, List.getElem?_set_ne h]

theorem read_bytes_le (n : Nat) (enc : Bytes) : (read_bytes n enc).2.length ≤ enc.length := by
  unfold read_bytes
  split <;> simp

theorem read_bytes_ok {n : Nat} {enc bs enc' : Bytes}
    (h : read_bytes n enc = (.ok bs, enc')) :
    bs = enc.take n ∧ enc' = enc.drop n ∧ n ≤ enc.length := by
  unfold read_bytes at h
  split at h
  · exact absurd h (by simp)
  next hlt =>
    injection h with h1 h2
    injection h1 with h1
    exact ⟨h1.symm, h2.symm, by omega⟩

theorem read_bytes_err {n : Nat} {enc enc' : Bytes} {e : EpeeError}
    (h : read_bytes n enc = (.error e, enc')) :
    e = .Short n ∧ enc' = enc ∧ enc.length < n := by
  unfold read_bytes at h
  split at h
  next hlt =>
    injection h with h1 h2
    injection h1 with h1
    exact ⟨h1.symm, h2.symm, hlt⟩
  · exact absurd h (by simp)

theorem read_byte_nil : read_byte [] = (.error (.Short 1), []) := rfl

theorem read_byte_cons (b : Nat) (rest : Bytes) : read_byte (b :: rest) = (.ok b, rest) := by
  simp [read_byte, read_into_slice, read_bytes]

theorem read_byte_ok {enc enc' : Bytes} {b : Nat}
    (h : read_byte enc = (.ok b, enc')) : enc = b :: enc' := by
  unfold read_byte read_into_slice at h
  split at h
  next buf enc2 hrb =>
    obtain ⟨hbuf, henc, hle⟩ := read_bytes_ok hrb
    injection h with h1 h2
    injection h1 with h1
    match enc, hle with
    | c :: rest, _ =>
      subst hbuf henc h1 h2
      simp
  next => exact absurd h (by simp)

theorem read_byte_err {enc enc' : Bytes} {e : EpeeError}
    (h : read_byte enc = (.error e, enc')) : e = .Short 1 ∧ enc' = enc ∧ enc = [] := by
  unfold read_byte read_into_slice at h
  split at h
  next => exact absurd h (by simp)
  next e2 enc2 hrb =>
    injection h with h1 h2
    injection h1 with h1
    obtain ⟨he, henc, hlt⟩ := read_bytes_err hrb
    subst h1 h2
    refine ⟨he, henc, ?_⟩
    cases enc
    · rfl
    · simp at hlt

theorem advance_ok {n : Nat} {enc enc' : Bytes}
    (h : advance n enc = (.ok (), enc')) : enc' = enc.drop n ∧ n ≤ enc.length := by
  unfold advance at h
  split at h
  next bs enc2 hrb =>
    obtain ⟨_, henc, hle⟩ := read_bytes_ok hrb
    injection h with h1 h2
    subst h2
    exact ⟨henc, hle⟩
  next => exact absurd h (by simp)

theorem advance_of_le {n : Nat} {enc : Bytes} (h : n ≤ enc.length) :
    advance n enc = (.ok (), enc.drop n) := by
  have hrb : read_bytes n enc = (.ok (enc.take n), enc.drop n) := by
    unfold read_bytes
    rw [if_neg (by omega)]
  unfold advance
  rw [hrb]

theorem varint_loop_le (count : Nat) :
    ∀ (vi i : Nat) (enc : Bytes), (varint_loop vi i count enc).2.length ≤ enc.length := by
  induction count with
  | zero => intro vi i enc; simp [varint_loop]
  | succ c ih =>
    intro vi i enc
    unfold varint_loop
    split
    next e enc' hrb =>
      obtain ⟨_, henc, _⟩ := read_byte_err hrb
      simp [henc]
    next b enc' hrb =>
      have := read_byte_ok hrb
      have h2 := ih (vi ||| (b <<< (i * 8))) (i + 1) enc'
      subst this
      simp at h2 ⊢
      omega

theorem varint_loop_le' {vi i count : Nat} {enc enc' : Bytes} {r : Except EpeeError Nat}
    (h : varint_loop vi i count enc = (r, enc')) : enc'.length ≤ enc.length := by
  have := varint_loop_le count vi i enc
  rw [h] at this
  exact this

theorem read_varint_ok_lt {enc enc' : Bytes} {v : Nat}
    (h : read_varint enc = (.ok v, enc')) : enc'.length < enc.length := by
  unfold read_varint at h
  split at h
  next => exact absurd h (by simp)
  next b enc1 hrb =>
    have hshape := read_byte_ok hrb
    subst hshape
    simp only [] at h
    split at h
    next => exact absurd h (by simp)
    next vi enc2 hloop =>
      injection h with h1 h2
      subst h2
      have hl := varint_loop_le' hloop
      simp at hl ⊢
      omega

theorem read_str_ok_lt {enc enc' : Bytes} {s : EpeeString}
    (h : read_str enc = (.ok s, enc')) : enc'.length < enc.length := by
  unfold read_str at h
  split at h
  next => exact absurd h (by simp)
  next len enc1 hv =>
    have h1 := read_varint_ok_lt hv
    split at h
    next => exact absurd h (by simp)
    next bs enc2 hrb =>
      obtain ⟨_, henc, _⟩ := read_bytes_ok hrb
      injection h with _ h2
      subst h2 henc
      simp
      omega

theorem read_key_ok_lt {enc enc' : Bytes} {s : EpeeString}
    (h : read_key enc = (.ok s, enc')) : enc'.length < enc.length := by
  unfold read_key at h
  split at h
  next => exact absurd h (by simp)
  next len enc1 hrb =>
    have hshape := read_byte_ok hrb
    split at h
    next => exact absurd h (by simp)
    next =>
      split at h
      next => exact absurd h (by simp)
      next bs enc2 hbs =>
        obtain ⟨_, henc, _⟩ := read_bytes_ok hbs
        injection h with _ h2
        subst h2 henc hshape
        simp
        omega

theorem ty_read_ok_lt {enc enc' : Bytes} {k : Ty} {l : Nat}
    (h : Ty.read enc = (.ok (k, l), enc')) : enc'.length < enc.length := by
  unfold Ty.read at h
  split at h
  next => exact absurd h (by simp)
  next b enc1 hrb =>
    have hshape := read_byte_ok hrb
    subst hshape
    simp only at h
    split at h
    next => exact absurd h (by simp)
    next =>
      split at h
      · split at h
        next => exact absurd h (by simp)
        next v enc2 hv =>
          have := read_varint_ok_lt hv
          injection h with _ h2
          subst h2
          simp
          omega
      · injection h with _ h2
        subst h2
        simp


theorem pop_eq_zero {s : Stack} (hdep : s.depth = 0) : s.pop = (none, s) := by
  unfold Stack.pop
  rw [hdep]

theorem pop_eq_succ {s : Stack} {d : Nat} (hdep : s.depth = d + 1) :
    s.pop = (some (s.types.getD d .Entry),
      if s.amounts.getD d 1 - 1 = 0 then { s with depth := d }
      else { s with amounts := s.amounts.set d (s.amounts.getD d 1 - 1) }) := by
  unfold Stack.pop
  rw [hdep]
  split
  next h0 => exact absurd h0 (by omega)
  next d2 hsucc =>
    have hd2 : d2 = d := by omega
    subst hd2
    split
    next hc => rw [if_pos hc]
    next hc => rw [if_neg hc]

theorem peek_eq_zero {s : Stack} (hdep : s.depth = 0) : s.peek = none := by
  unfold Stack.peek
  rw [hdep]

theorem peek_eq_succ {s : Stack} {d : Nat} (hdep : s.depth = d + 1) :
    s.peek = some (s.types.getD d .Entry, s.amounts.getD d 1) := by
  unfold Stack.peek
  rw [hdep]

theorem pop_fst_some {s : Stack} (hd : 0 < s.depth) :
    (s.pop).1 = some (s.types.getD (s.depth - 1) .Entry) := by
  obtain ⟨d, hdep⟩ : ∃ d, s.depth = d + 1 := ⟨s.depth - 1, by omega⟩
  rw [pop_eq_succ hdep, hdep]
  simp only [Nat.add_sub_cancel]

theorem pop_depth_le (s : Stack) : (s.pop).2.depth ≤ s.depth := by
  rcases hdep : s.depth with _ | d
  · rw [pop_eq_zero hdep]
    simp [hdep]
  · rw [pop_eq_succ hdep]
    split <;> simp [hdep]

theorem pop_depth_ge (s : Stack) : s.depth - 1 ≤ (s.pop).2.depth := by
  rcases hdep : s.depth with _ | d
  · rw [pop_eq_zero hdep]
    simp [hdep]
  · rw [pop_eq_succ hdep]
    split <;> simp [hdep]

theorem pop_depth_of_two_le {s : Stack} (hd : 0 < s.depth)
    (h2 : 2 ≤ s.amounts.getD (s.depth - 1) 1) : (s.pop).2.depth = s.depth := by
  obtain ⟨d, hdep⟩ : ∃ d, s.depth = d + 1 := ⟨s.depth - 1, by omega⟩
  rw [hdep] at h2
  simp only [Nat.add_sub_cancel] at h2
  rw [pop_eq_succ hdep]
  rw [if_neg (by omega)]

theorem push_depth {s s' : Stack} {k : TypeOrEntry} {a : Nat}
    (h : s.push k a = .ok s') : s.depth ≤ s'.depth ∧ s'.depth ≤ s.depth + 1 := by
  unfold Stack.push at h
  split at h
  · exact absurd h (by simp)
  · split at h
    · injection h with h
      subst h
      omega
    · injection h with h
      subst h
      simp

theorem scalar_step_ok {w : Nat} {s2 s' : Stack} {enc enc' : Bytes}
    {r : Option SingleStepResult}
    (h : scalar_step w s2 enc = (.ok r, s', enc')) :
    r = some .Unit ∧ s' = s2 ∧ enc' = enc.drop w ∧ w ≤ enc.length := by
  unfold scalar_step at h
  split at h
  next u enc2 hadv =>
    obtain ⟨he, hw⟩ := advance_ok hadv
    injection h with h1 h23
    injection h23 with h2 h3
    injection h1 with h1
    subst h1 h2 h3 he
    exact ⟨rfl, rfl, rfl, hw⟩
  next => simp at h

theorem single_step_ok_facts {s : Stack} {enc : Bytes} {r : Option SingleStepResult}
    {s' : Stack} {enc' : Bytes}
    (h : s.single_step enc = (.ok r, s', enc')) :
    (s.depth = 0 ∧ s' = s ∧ enc' = enc) ∨
    (0 < s.depth ∧ enc'.length < enc.length ∧ s.depth - 1 ≤ s'.depth ∧
      (2 ≤ s.amounts.getD (s.depth - 1) 1 → s.depth ≤ s'.depth)) := by
  rcases hdep : s.depth with _ | d
  · left
    unfold Stack.single_step at h
    rw [pop_eq_zero hdep] at h
    simp only [] at h
    injection h with h1 h23
    injection h23 with h2 h3
    exact ⟨rfl, h2.symm, h3.symm⟩
  · right
    have hd : 0 < s.depth := by omega
    have hpop : s.pop = (some (s.types.getD d .Entry), (s.pop).2) := by
      have h1 := pop_fst_some hd
      rw [hdep] at h1
      simp only [Nat.add_sub_cancel] at h1
      rw [← h1]
    have hge := pop_depth_ge s
    have htwo : 2 ≤ s.amounts.getD (s.depth - 1) 1 → (s.pop).2.depth = s.depth :=
      fun h2 => pop_depth_of_two_le hd h2
    rw [hdep] at hge htwo hd
    unfold Stack.single_step at h
    rw [hpop] at h
    simp only [] at h
    rcases hk : s.types.getD d .Entry with t | _
    · rw [hk] at h
      rcases t with _ | _ | _ | _ | _ | _ | _ | _ | _ | _ | _ | _
      all_goals simp only [] at h
      all_goals first
        | { obtain ⟨h1, h2, h3, h4⟩ := scalar_step_ok h
            subst h2 h3
            refine ⟨hd, by simp; omega, by omega, fun h2 => ?_⟩
            have := htwo h2
            omega }
        | { split at h
            next str enc2 hstr =>
              injection h with h1 h23
              injection h23 with h2 h3
              subst h2 h3
              have a1 := read_str_ok_lt hstr
              refine ⟨hd, by omega, by omega, fun h2 => ?_⟩
              have := htwo h2
              omega
            next => simp at h }
        | { split at h
            next => simp at h
            next fields enc2 hv =>
              split at h
              next => simp at h
              next s3 hpush =>
                injection h with h1 h23
                injection h23 with h2 h3
                subst h2 h3
                have a1 := read_varint_ok_lt hv
                have a3 := (push_depth hpush).1
                refine ⟨hd, by omega, by omega, fun h2 => ?_⟩
                have := htwo h2
                omega }
    · rw [hk] at h
      simp only [] at h
      split at h
      next => simp at h
      next key enc2 hkey =>
        split at h
        next => simp at h
        next kind2 len2 enc3 hty =>
          split at h
          next => simp at h
          next s3 hpush =>
            injection h with h1 h23
            injection h23 with h2 h3
            subst h2 h3
            have a1 := read_key_ok_lt hkey
            have a2 := ty_read_ok_lt hty
            have a3 := (push_depth hpush).1
            refine ⟨hd, by omega, by omega, fun h2 => ?_⟩
            have := htwo h2
            omega

theorem single_step_ok_lt {s : Stack} {enc : Bytes} {r : Option SingleStepResult}
    {s' : Stack} {enc' : Bytes} (hd : 0 < s.depth)
    (h : s.single_step enc = (.ok r, s', enc')) : enc'.length < enc.length := by
  rcases single_step_ok_facts h with ⟨h0, _, _⟩ | ⟨_, hlt, _, _⟩
  · omega
  · exact hlt

theorem stepLoopF_isSome {fuel : Nat} :
    ∀ {stop : Nat} {s : Stack} {enc : Bytes}, stop < s.depth → enc.length < fuel →
      (Stack.stepLoopF fuel stop s enc).isSome := by
  induction fuel with
  | zero => intro stop s enc h1 h2; omega
  | succ f ih =>
    intro stop s enc hstop hlen
    unfold Stack.stepLoopF
    split
    next => simp
    next r s' enc' hss =>
      split
      next => simp
      next hne =>
        rcases single_step_ok_facts hss with ⟨h0, hs, he⟩ | ⟨hpos, hlt, hge, _⟩
        · omega
        · exact ih (by omega) (by omega)

theorem stepLoopF_isSome_top {fuel : Nat} {s : Stack} {enc : Bytes} (hd : 0 < s.depth)
    (h2 : 2 ≤ s.amounts.getD (s.depth - 1) 1) (hlen : enc.length < fuel) :
    (Stack.stepLoopF fuel s.depth s enc).isSome := by
  rcases fuel with _ | f
  · omega
  · unfold Stack.stepLoopF
    split
    next => simp
    next r s' enc' hss =>
      split
      next => simp
      next hne =>
        rcases single_step_ok_facts hss with ⟨h0, hs, he⟩ | ⟨hpos, hlt, hge, htop⟩
        · omega
        · have := htop h2
          exact stepLoopF_isSome (by omega) (by omega)

/-- Termination of the skip loop: `Stack::step` never runs out of the
`enc.length + 1` fuel bound, for every stack and every finite input. -/
theorem stepO_isSome (s : Stack) (enc : Bytes) : (s.stepO enc).isSome := by
  unfold Stack.stepO
  split
  next => simp
  next t len hpeek =>
    have hd : 0 < s.depth := by
      rcases hdep : s.depth with _ | d
      · rw [peek_eq_zero hdep] at hpeek
        simp at hpeek
      · omega
    obtain ⟨d, hdep⟩ : ∃ d, s.depth = d + 1 := ⟨s.depth - 1, by omega⟩
    have hlen : len = s.amounts.getD d 1 := by
      rw [peek_eq_succ hdep] at hpeek
      injection hpeek with hpeek
      cases hpeek
      rfl
    have hsome : (Stack.stepLoopF (enc.length + 1) (if 1 < len then s.depth else s.depth - 1)
        s enc).isSome := by
      by_cases h1 : 1 < len
      · rw [if_pos h1]
        refine stepLoopF_isSome_top hd ?_ (by omega)
        rw [hdep]
        simp only [Nat.add_sub_cancel]
        omega
      · rw [if_neg h1]
        exact stepLoopF_isSome (by omega) (by omega)
    obtain ⟨res, hres⟩ := Option.isSome_iff_exists.mp hsome
    simp only []
    rw [hres]
    rcases res with ⟨r, s', enc'⟩
    rcases r with e | u
    · simp
    · simp

theorem step_eq_of_stepO {s : Stack} {enc : Bytes}
    {res : Except EpeeError (Option Unit) × Stack × Bytes}
    (h : s.stepO enc = some res) : s.step enc = res := by
  unfold Stack.step
  rw [h]
  rfl

/-- The byte-level action `single_step` performs for a slot of kind `t`,
together with the slots it pushes: scalars advance their width, strings read a
length-prefixed body, objects read a field count `c` and push `(Entry, c)`,
entries read a key and a type tag `(k, l)` and push `(Type k, l)` (a zero count
pushes nothing). -/
def HeadRead : TypeOrEntry → Bytes → Bytes → List (TypeOrEntry × Nat) → Prop
  | .Type .Int64, enc, enc', pushed => advance 8 enc = (.ok (), enc') ∧ pushed = []
  | .Type .Int32, enc, enc', pushed => advance 4 enc = (.ok (), enc') ∧ pushed = []
  | .Type .Int16, enc, enc', pushed => advance 2 enc = (.ok (), enc') ∧ pushed = []
  | .Type .Int8, enc, enc', pushed => advance 1 enc = (.ok (), enc') ∧ pushed = []
  | .Type .Uint64, enc, enc', pushed => advance 8 enc = (.ok (), enc') ∧ pushed = []
  | .Type .Uint32, enc, enc', pushed => advance 4 enc = (.ok (), enc') ∧ pushed = []
  | .Type .Uint16, enc, enc', pushed => advance 2 enc = (.ok (), enc') ∧ pushed = []
  | .Type .Uint8, enc, enc', pushed => advance 1 enc = (.ok (), enc') ∧ pushed = []
  | .Type .Double, enc, enc', pushed => advance 8 enc = (.ok (), enc') ∧ pushed = []
  | .Type .Bool, enc, enc', pushed => advance 1 enc = (.ok (), enc') ∧ pushed = []
  | .Type .String, enc, enc', pushed =>
      (∃ str, read_str enc = (.ok str, enc')) ∧ pushed = []
  | .Type .Object, enc, enc', pushed =>
      ∃ c, read_varint enc = (.ok c, enc') ∧
        pushed = if c = 0 then [] else [(.Entry, c)]
  | .Entry, enc, enc', pushed =>
      ∃ key k l enc1, read_key enc = (.ok key, enc1) ∧ Ty.read enc1 = (.ok (k, l), enc') ∧
        pushed = if l = 0 then [] else [(.Type k, l)]

theorem refSkipSlots_nil_inv {enc enc' : Bytes} (h : RefSkipSlots [] enc enc') :
    enc' = enc := by
  cases h
  rfl

theorem refSkipSlots_cons_inv {t : TypeOrEntry} {n : Nat}
    {rest : List (TypeOrEntry × Nat)} {enc enc' : Bytes}
    (h : RefSkipSlots ((t, n) :: rest) enc enc') :
    ∃ mid, RefSkipMany t n enc mid ∧ RefSkipSlots rest mid enc' := by
  cases h with
  | cons h1 h2 => exact ⟨_, h1, h2⟩

theorem refSkipSlots_append_inv {a b : List (TypeOrEntry × Nat)} {enc enc' : Bytes}
    (h : RefSkipSlots (a ++ b) enc enc') :
    ∃ mid, RefSkipSlots a enc mid ∧ RefSkipSlots b mid enc' := by
  induction a generalizing enc with
  | nil => exact ⟨enc, .nil, h⟩
  | cons p rest ih =>
    rcases p with ⟨t, n⟩
    obtain ⟨m1, h1, h2⟩ := refSkipSlots_cons_inv h
    obtain ⟨m2, h3, h4⟩ := ih h2
    exact ⟨m2, .cons h1 h3, h4⟩

/-- Building the one-value reference read from the head action and the
reference reads of the slots it pushed. -/
theorem headRead_refSkip {t : TypeOrEntry} {enc enc1 mid : Bytes}
    {pushed : List (TypeOrEntry × Nat)}
    (hr : HeadRead t enc enc1 pushed) (hs : RefSkipSlots pushed enc1 mid) :
    RefSkip t enc mid := by
  rcases t with t | _
  · rcases t with _ | _ | _ | _ | _ | _ | _ | _ | _ | _ | _ | _
    case String =>
      obtain ⟨⟨str, hread⟩, hp⟩ := hr
      subst hp
      rw [refSkipSlots_nil_inv hs]
      exact .str hread
    case Object =>
      obtain ⟨c, hread, hp⟩ := hr
      subst hp
      by_cases hc : c = 0
      · rw [if_pos hc] at hs
        rw [refSkipSlots_nil_inv hs]
        subst hc
        exact .object hread .nil
      · rw [if_neg hc] at hs
        obtain ⟨m2, h1, h2⟩ := refSkipSlots_cons_inv hs
        rw [refSkipSlots_nil_inv h2]
        exact .object hread h1
    all_goals
      obtain ⟨hread, hp⟩ := hr
      subst hp
      rw [refSkipSlots_nil_inv hs]
    · exact .int64 hread
    · exact .int32 hread
    · exact .int16 hread
    · exact .int8 hread
    · exact .uint64 hread
    · exact .uint32 hread
    · exact .uint16 hread
    · exact .uint8 hread
    · exact .double hread
    · exact .bool hread
  · obtain ⟨key, k, l, e1, hkey, hty, hp⟩ := hr
    subst hp
    by_cases hl : l = 0
    · rw [if_pos hl] at hs
      rw [refSkipSlots_nil_inv hs]
      subst hl
      exact .entry hkey hty .nil
    · rw [if_neg hl] at hs
      obtain ⟨m2, h1, h2⟩ := refSkipSlots_cons_inv hs
      rw [refSkipSlots_nil_inv h2]
      exact .entry hkey hty h1

theorem suffixAux_of_le {ty : List TypeOrEntry} {am : List Nat} {stop d : Nat}
    (h : d ≤ stop) : suffixAux ty am stop d = [] := by
  cases d
  · rfl
  · unfold suffixAux
    rw [if_pos h]

theorem suffixAux_cons {ty : List TypeOrEntry} {am : List Nat} {stop d : Nat}
    (h : stop ≤ d) :
    suffixAux ty am stop (d + 1) =
      (ty.getD d .Entry, am.getD d 1) :: suffixAux ty am stop d := by
  conv_lhs => unfold suffixAux
  rw [if_neg (by omega)]

theorem suffixAux_congr {ty1 ty2 : List TypeOrEntry} {am1 am2 : List Nat} {stop : Nat} :
    ∀ {d : Nat},
      (∀ i, stop ≤ i → i < d → ty1.getD i .Entry = ty2.getD i .Entry) →
      (∀ i, stop ≤ i → i < d → am1.getD i 1 = am2.getD i 1) →
      suffixAux ty1 am1 stop d = suffixAux ty2 am2 stop d := by
  intro d
  induction d with
  | zero => intro _ _; rfl
  | succ d ih =>
    intro h1 h2
    by_cases hle : d + 1 ≤ stop
    · rw [suffixAux_of_le hle, suffixAux_of_le hle]
    · rw [suffixAux_cons (by omega), suffixAux_cons (by omega)]
      rw [h1 d (by omega) (by omega), h2 d (by omega) (by omega)]
      rw [ih (fun i a b => h1 i a (by omega)) (fun i a b => h2 i a (by omega))]

theorem suffixAux_mem {ty : List TypeOrEntry} {am : List Nat} {stop : Nat} :
    ∀ {d : Nat} {p : TypeOrEntry × Nat}, p ∈ suffixAux ty am stop d →
      ∃ i, stop ≤ i ∧ i < d ∧ p = (ty.getD i .Entry, am.getD i 1) := by
  intro d
  induction d with
  | zero => intro p hp; exact absurd hp (by simp [suffixAux])
  | succ d ih =>
    intro p hp
    by_cases hle : d + 1 ≤ stop
    · rw [suffixAux_of_le hle] at hp
      simp at hp
    · rw [suffixAux_cons (by omega)] at hp
      rcases List.mem_cons.mp hp with h | h
      · exact ⟨d, by omega, by omega, h⟩
      · obtain ⟨i, a, b, c⟩ := ih h
        exact ⟨i, a, by omega, c⟩

theorem getD_default_eq {α : Type} {l : List α} {i : Nat} (h : i < l.length) (d1 d2 : α) :
    l.getD i d1 = l.getD i d2 := by
  simp [List.getD, List.getElem?_eq_getElem h]

theorem push_ok_char {s s' : Stack} {k : TypeOrEntry} {a : Nat}
    (h : s.push k a = .ok s') :
    s.depth ≠ MAX_OBJECT_DEPTH ∧
    ((a = 0 ∧ s' = s) ∨
      (1 ≤ a ∧ s' = { s with
                        types := s.types.set s.depth k,
                        amounts := s.amounts.set s.depth a,
                        depth := s.depth + 1 })) := by
  unfold Stack.push at h
  split at h
  · exact absurd h (by simp)
  next hne =>
    split at h
    next ha =>
      injection h with h
      exact ⟨hne, Or.inl ⟨ha, h.symm⟩⟩
    next ha =>
      injection h with h
      exact ⟨hne, Or.inr ⟨by omega, h.symm⟩⟩

/-- What `Stack::pop` leaves behind, abstracted over the two amount cases. -/
def PopFacts (s s2 : Stack) (d : Nat) : Prop :=
  s2.types = s.types ∧
  s2.amounts.length = s.amounts.length ∧
  s2.depth = (if s.amounts.getD d 1 ≤ 1 then d else d + 1) ∧
  (∀ i, i ≠ d → s2.amounts.getD i 1 = s.amounts.getD i 1) ∧
  s2.amounts.getD d 1 = (if s.amounts.getD d 1 ≤ 1 then s.amounts.getD d 1
                         else s.amounts.getD d 1 - 1)

theorem pop_popFacts {s : Stack} {d : Nat} (hdep : s.depth = d + 1)
    (ham : s.amounts.length = MAX_OBJECT_DEPTH) (hmax : s.depth ≤ MAX_OBJECT_DEPTH) :
    s.pop = (some (s.types.getD d .Entry), (s.pop).2) ∧ PopFacts s (s.pop).2 d := by
  have hd : d < s.amounts.length := by omega
  rw [pop_eq_succ hdep]
  by_cases hn : s.amounts.getD d 1 - 1 = 0
  · rw [if_pos hn]
    refine ⟨rfl, rfl, rfl, ?_, ?_, ?_⟩
    · rw [if_pos (by omega)]
    · intro i _
      rfl
    · rw [if_pos (by omega)]
  · rw [if_neg hn]
    refine ⟨rfl, rfl, by simp, ?_, ?_, ?_⟩
    · rw [if_neg (by omega)]
      exact hdep
    · intro i hi
      exact getD_set_ne (by omega)
    · rw [if_neg (by omega)]
      exact getD_set_self hd

theorem popFacts_suffix {s s2 : Stack} {d : Nat}
    (hdep : s.depth = d + 1) (hty : s2.types = s.types) (hpf : PopFacts s s2 d) :
    (∀ stop, stop ≤ d → s2.suffix stop =
      (if s.amounts.getD d 1 ≤ 1 then [] else
        [(s.types.getD d .Entry, s.amounts.getD d 1 - 1)]) ++
      suffixAux s.types s.amounts stop d) ∧
    s2.suffix (d + 1) = [] := by
  obtain ⟨hty2, hlen, hd2, hne, hgd⟩ := hpf
  have hcongr : ∀ stop, suffixAux s2.types s2.amounts stop d =
      suffixAux s.types s.amounts stop d := by
    intro stop
    exact suffixAux_congr (fun i _ _ => by rw [hty2]) (fun i _ hi => hne i (by omega))
  constructor
  · intro stop hstop
    unfold Stack.suffix
    rw [hd2]
    by_cases hn : s.amounts.getD d 1 ≤ 1
    · rw [if_pos hn, if_pos hn]
      simp only [List.nil_append]
      exact hcongr stop
    · rw [if_neg hn, if_neg hn]
      rw [suffixAux_cons hstop]
      rw [hcongr stop]
      rw [hty2]
      rw [if_neg hn] at hgd
      rw [hgd]
      simp
  · unfold Stack.suffix
    rw [hd2]
    by_cases hn : s.amounts.getD d 1 ≤ 1
    · rw [if_pos hn]
      exact suffixAux_of_le (by omega)
    · rw [if_neg hn]
      exact suffixAux_of_le (by omega)

theorem push_one_suffix {s2 : Stack} {k : TypeOrEntry} {a : Nat}
    (hlt : s2.depth < s2.types.length) (hlen : s2.amounts.length = s2.types.length) :
    ∀ stop, stop ≤ s2.depth →
      Stack.suffix { s2 with
                       types := s2.types.set s2.depth k,
                       amounts := s2.amounts.set s2.depth a,
                       depth := s2.depth + 1 } stop =
        (k, a) :: s2.suffix stop := by
  intro stop hstop
  unfold Stack.suffix
  simp only []
  rw [suffixAux_cons hstop]
  rw [getD_set_self hlt, getD_set_self (by omega)]
  congr 1
  exact suffixAux_congr (fun i _ hi => getD_set_ne (by omega))
    (fun i _ hi => getD_set_ne (by omega))

theorem single_step_suffix_nopush {s s2 : Stack} {d : Nat}
    (hdep : s.depth = d + 1)
    (hty : s.types.length = MAX_OBJECT_DEPTH)
    (ham : s.amounts.length = MAX_OBJECT_DEPTH)
    (hmax : s.depth ≤ MAX_OBJECT_DEPTH)
    (hpf : PopFacts s s2 d) :
    s2.types.length = MAX_OBJECT_DEPTH ∧
    s2.amounts.length = MAX_OBJECT_DEPTH ∧
    s2.depth = (if s.amounts.getD d 1 ≤ 1 then d else d + 1) ∧
    (∀ i, i < d → s2.types.getD i .Entry = s.types.getD i .Entry ∧
        s2.amounts.getD i 1 = s.amounts.getD i 1) ∧
    (2 ≤ s.amounts.getD d 1 →
      s2.types.getD d .Entry = s.types.getD d .Entry ∧
      s2.amounts.getD d 1 = s.amounts.getD d 1 - 1) ∧
    (∀ stop, stop ≤ d → s2.suffix stop =
      ((if s.amounts.getD d 1 ≤ 1 then [] else
          [(s.types.getD d .Entry, s.amounts.getD d 1 - 1)]) ++
        suffixAux s.types s.amounts stop d)) ∧
    (2 ≤ s.amounts.getD d 1 → s2.suffix (d + 1) = []) ∧
    s2.depth ≤ MAX_OBJECT_DEPTH := by
  obtain ⟨hty2, hlen2, hdep2, hne2, hgd2⟩ := hpf
  have hsuf := popFacts_suffix hdep hty2 ⟨hty2, hlen2, hdep2, hne2, hgd2⟩
  refine ⟨by rw [hty2]; exact hty, by rw [hlen2]; exact ham, hdep2, ?_, ?_, hsuf.1,
    fun _ => hsuf.2, by rw [hdep2]; split <;> omega⟩
  · intro i hi
    exact ⟨by rw [hty2], hne2 i (by omega)⟩
  · intro h2
    refine ⟨by rw [hty2], ?_⟩
    rw [hgd2, if_neg (by omega)]

theorem single_step_suffix_push {s s2 : Stack} {d : Nat} {K : TypeOrEntry} {c : Nat}
    (hdep : s.depth = d + 1)
    (hty : s.types.length = MAX_OBJECT_DEPTH)
    (ham : s.amounts.length = MAX_OBJECT_DEPTH)
    (hmax : s.depth ≤ MAX_OBJECT_DEPTH)
    (hpf : PopFacts s s2 d)
    (hc : 1 ≤ c) (hne : s2.depth ≠ MAX_OBJECT_DEPTH) :
    ∀ s3, s3 = { s2 with
                   types := s2.types.set s2.depth K,
                   amounts := s2.amounts.set s2.depth c,
                   depth := s2.depth + 1 } →
    s3.types.length = MAX_OBJECT_DEPTH ∧
    s3.amounts.length = MAX_OBJECT_DEPTH ∧
    s3.depth = 1 + (if s.amounts.getD d 1 ≤ 1 then d else d + 1) ∧
    (∀ i, i < d → s3.types.getD i .Entry = s.types.getD i .Entry ∧
        s3.amounts.getD i 1 = s.amounts.getD i 1) ∧
    (2 ≤ s.amounts.getD d 1 →
      s3.types.getD d .Entry = s.types.getD d .Entry ∧
      s3.amounts.getD d 1 = s.amounts.getD d 1 - 1) ∧
    (∀ stop, stop ≤ d → s3.suffix stop = [(K, c)] ++
      ((if s.amounts.getD d 1 ≤ 1 then [] else
          [(s.types.getD d .Entry, s.amounts.getD d 1 - 1)]) ++
        suffixAux s.types s.amounts stop d)) ∧
    (2 ≤ s.amounts.getD d 1 → s3.suffix (d + 1) = [(K, c)]) ∧
    s3.depth ≤ MAX_OBJECT_DEPTH := by
  intro s3 hs3
  obtain ⟨hnp1, hnp2, hnp3, hnp4, hnp5, hnp6, hnp7, hnp8⟩ :=
    single_step_suffix_nopush hdep hty ham hmax hpf
  have hdle : s2.depth ≤ d + 1 := by rw [hnp3]; split <;> omega
  have hdge : d ≤ s2.depth := by rw [hnp3]; split <;> omega
  have hlt : s2.depth < s2.types.length := by
    rw [hnp1]
    omega
  have hps := push_one_suffix (k := K) (a := c) hlt (by rw [hnp1, hnp2])
  subst hs3
  refine ⟨by simp [hnp1], by simp [hnp2], by simp only []; rw [hnp3]; omega, ?_, ?_, ?_, ?_,
    by simp only []; omega⟩
  · intro i hi
    have h1 := hnp4 i hi
    exact ⟨by rw [getD_set_ne (by omega)]; exact h1.1,
           by rw [getD_set_ne (by omega)]; exact h1.2⟩
  · intro h2
    have hd2 : s2.depth = d + 1 := by rw [hnp3, if_neg (by omega)]
    have h1 := hnp5 h2
    exact ⟨by rw [getD_set_ne (by omega)]; exact h1.1,
           by rw [getD_set_ne (by omega)]; exact h1.2⟩
  · intro stop hstop
    rw [hps stop (by omega)]
    rw [hnp6 stop hstop]
    rfl
  · intro h2
    have hd2 : s2.depth = d + 1 := by rw [hnp3, if_neg (by omega)]
    have := hps (d + 1) (by omega)
    rw [this]
    rw [hnp7 h2]

theorem single_step_suffix {s s' : Stack} {enc enc' : Bytes} {r : Option SingleStepResult}
    {d : Nat} (hdep : s.depth = d + 1)
    (hty : s.types.length = MAX_OBJECT_DEPTH)
    (ham : s.amounts.length = MAX_OBJECT_DEPTH)
    (hmax : s.depth ≤ MAX_OBJECT_DEPTH)
    (h : s.single_step enc = (.ok r, s', enc')) :
    ∃ pushed,
      HeadRead (s.types.getD d .Entry) enc enc' pushed ∧
      (∀ p, p ∈ pushed → 1 ≤ p.2) ∧
      s'.types.length = MAX_OBJECT_DEPTH ∧
      s'.amounts.length = MAX_OBJECT_DEPTH ∧
      s'.depth = pushed.length + (if s.amounts.getD d 1 ≤ 1 then d else d + 1) ∧
      (∀ i, i < d → s'.types.getD i .Entry = s.types.getD i .Entry ∧
          s'.amounts.getD i 1 = s.amounts.getD i 1) ∧
      (2 ≤ s.amounts.getD d 1 →
        s'.types.getD d .Entry = s.types.getD d .Entry ∧
        s'.amounts.getD d 1 = s.amounts.getD d 1 - 1) ∧
      (∀ stop, stop ≤ d → s'.suffix stop = pushed ++
        ((if s.amounts.getD d 1 ≤ 1 then [] else
            [(s.types.getD d .Entry, s.amounts.getD d 1 - 1)]) ++
          suffixAux s.types s.amounts stop d)) ∧
      (2 ≤ s.amounts.getD d 1 → s'.suffix (d + 1) = pushed) ∧
      s'.depth ≤ MAX_OBJECT_DEPTH := by
  obtain ⟨hpop, hpf⟩ := pop_popFacts hdep ham hmax
  unfold Stack.single_step at h
  rw [hpop] at h
  simp only [] at h
  rcases hk : s.types.getD d .Entry with t | _
  · rw [hk] at h
    rcases t with _ | _ | _ | _ | _ | _ | _ | _ | _ | _ | _ | _
    all_goals simp only [] at h
    all_goals first
      | { obtain ⟨h1, h2, h3, h4⟩ := scalar_step_ok h
          subst h2 h3
          obtain ⟨c1, c2, c3, c4, c5, c6, c7, c8⟩ := single_step_suffix_nopush hdep hty ham hmax hpf
          exact ⟨[], ⟨advance_of_le h4, rfl⟩, by simp, c1, c2,
            by simpa using c3, c4,
            fun h2 => ⟨(c5 h2).1.trans hk, (c5 h2).2⟩,
            fun stop hs => by rw [c6 stop hs, hk]; rfl,
            fun h2 => c7 h2, c8⟩ }
      | { split at h
          next str enc2 hstr =>
            injection h with h1 h23
            injection h23 with h2 h3
            subst h2 h3
            obtain ⟨c1, c2, c3, c4, c5, c6, c7, c8⟩ := single_step_suffix_nopush hdep hty ham hmax hpf
            exact ⟨[], ⟨⟨str, hstr⟩, rfl⟩, by simp, c1, c2,
              by simpa using c3, c4,
              fun h2 => ⟨(c5 h2).1.trans hk, (c5 h2).2⟩,
              fun stop hs => by rw [c6 stop hs, hk]; rfl,
              fun h2 => c7 h2, c8⟩
          next => simp at h }
      | { split at h
          next => simp at h
          next fields enc2 hv =>
            split at h
            next => simp at h
            next s3 hpush =>
              injection h with h1 h23
              injection h23 with h2 h3
              subst h2 h3
              obtain ⟨hne, hcase⟩ := push_ok_char hpush
              rcases hcase with ⟨hf0, hs3⟩ | ⟨hf1, hs3⟩
              · subst hs3 hf0
                obtain ⟨c1, c2, c3, c4, c5, c6, c7, c8⟩ :=
                  single_step_suffix_nopush hdep hty ham hmax hpf
                exact ⟨[], ⟨0, hv, by simp⟩, by simp, c1, c2,
                  by simpa using c3, c4,
                  fun h2 => ⟨(c5 h2).1.trans hk, (c5 h2).2⟩,
                  fun stop hs => by rw [c6 stop hs, hk]; rfl,
                  fun h2 => c7 h2, c8⟩
              · obtain ⟨c1, c2, c3, c4, c5, c6, c7, c8⟩ :=
                  single_step_suffix_push hdep hty ham hmax hpf hf1 hne s3 hs3
                refine ⟨[(.Entry, fields)], ⟨fields, hv,
                    by rw [if_neg (by omega)]⟩, by simp; omega, c1, c2,
                  by simpa using c3, c4,
                  fun h2 => ⟨(c5 h2).1.trans hk, (c5 h2).2⟩,
                  fun stop hs => by rw [c6 stop hs, hk],
                  fun h2 => c7 h2, c8⟩ }
  · rw [hk] at h
    simp only [] at h
    split at h
    next => simp at h
    next key enc2 hkey =>
      split at h
      next => simp at h
      next k2 l2 enc3 hty2 =>
        split at h
        next => simp at h
        next s3 hpush =>
          injection h with h1 h23
          injection h23 with h2 h3
          subst h2 h3
          obtain ⟨hne, hcase⟩ := push_ok_char hpush
          rcases hcase with ⟨hf0, hs3⟩ | ⟨hf1, hs3⟩
          · subst hs3 hf0
            obtain ⟨c1, c2, c3, c4, c5, c6, c7, c8⟩ :=
              single_step_suffix_nopush hdep hty ham hmax hpf
            exact ⟨[], ⟨key, k2, 0, enc2, hkey, hty2, by simp⟩, by simp,
              c1, c2, by simpa using c3, c4,
              fun h2 => ⟨(c5 h2).1.trans hk, (c5 h2).2⟩,
              fun stop hs => by rw [c6 stop hs, hk]; rfl,
              fun h2 => c7 h2, c8⟩
          · obtain ⟨c1, c2, c3, c4, c5, c6, c7, c8⟩ :=
              single_step_suffix_push hdep hty ham hmax hpf hf1 hne s3 hs3
            refine ⟨[(.Type k2, l2)], ⟨key, k2, l2, enc2, hkey, hty2,
                by rw [if_neg (by omega)]⟩, by simp; omega, c1, c2,
              by simpa using c3, c4,
              fun h2 => ⟨(c5 h2).1.trans hk, (c5 h2).2⟩,
              fun stop hs => by rw [c6 stop hs, hk],
              fun h2 => c7 h2, c8⟩

theorem suffixAux_mem_of {ty : List TypeOrEntry} {am : List Nat} {stop : Nat} :
    ∀ {d i : Nat}, stop ≤ i → i < d →
      (ty.getD i .Entry, am.getD i 1) ∈ suffixAux ty am stop d := by
  intro d
  induction d with
  | zero => intro i h1 h2; omega
  | succ d ih =>
    intro i h1 h2
    rw [suffixAux_cons (by omega)]
    by_cases hi : i = d
    · subst hi
      exact List.mem_cons_self _ _
    · exact List.mem_cons_of_mem _ (ih h1 (by omega))

theorem stepLoopF_sim {fuel : Nat} :
    ∀ {stop : Nat} {s s' : Stack} {enc enc' : Bytes},
      stop < s.depth →
      s.types.length = MAX_OBJECT_DEPTH →
      s.amounts.length = MAX_OBJECT_DEPTH →
      s.depth ≤ MAX_OBJECT_DEPTH →
      (∀ p, p ∈ s.suffix stop → 1 ≤ p.2) →
      Stack.stepLoopF fuel stop s enc = some (.ok (), s', enc') →
      RefSkipSlots (s.suffix stop) enc enc' ∧
      s'.depth = stop ∧
      s'.types.length = MAX_OBJECT_DEPTH ∧
      s'.amounts.length = MAX_OBJECT_DEPTH ∧
      (∀ i, i < stop → s'.types.getD i .Entry = s.types.getD i .Entry ∧
          s'.amounts.getD i 1 = s.amounts.getD i 1) := by
  induction fuel with
  | zero =>
    intro stop s s' enc enc' _ _ _ _ _ h
    simp [Stack.stepLoopF] at h
  | succ f ih =>
    intro stop s s' enc enc' hstop hty ham hmax hpos h
    obtain ⟨d, hdep⟩ : ∃ d, s.depth = d + 1 := ⟨s.depth - 1, by omega⟩
    have hstopd : stop ≤ d := by omega
    unfold Stack.stepLoopF at h
    split at h
    next => simp at h
    next r s1 enc1 hss =>
      obtain ⟨pushed, hread, hppos, d1, d2, d3, d4, d5, d6, d7, d8⟩ :=
        single_step_suffix hdep hty ham hmax hss
      have hsufS : s.suffix stop =
          (s.types.getD d .Entry, s.amounts.getD d 1) ::
            suffixAux s.types s.amounts stop d := by
        unfold Stack.suffix
        rw [hdep]
        exact suffixAux_cons hstopd
      have hn1 : 1 ≤ s.amounts.getD d 1 :=
        hpos _ (by rw [hsufS]; exact List.mem_cons_self _ _)
      have hsufS1 := d6 stop hstopd
      have hpos1 : ∀ p, p ∈ s1.suffix stop → 1 ≤ p.2 := by
        intro p hp
        rw [hsufS1] at hp
        rcases List.mem_append.mp hp with hp | hp
        · exact hppos p hp
        · rcases List.mem_append.mp hp with hp | hp
          · by_cases hle : s.amounts.getD d 1 ≤ 1
            · rw [if_pos hle] at hp
              simp at hp
            · rw [if_neg hle] at hp
              rw [List.mem_singleton] at hp
              subst hp
              exact (by omega : 1 ≤ s.amounts.getD d 1 - 1)
          · obtain ⟨i, hi1, hi2, hpe⟩ := suffixAux_mem hp
            subst hpe
            exact hpos _ (by
              rw [hsufS]
              exact List.mem_cons_of_mem _ (suffixAux_mem_of hi1 hi2))
      split at h
      next hexit =>
        simp at h
        obtain ⟨hs', he'⟩ := h
        subst hs' he'
        by_cases hle : s.amounts.getD d 1 ≤ 1
        · rw [if_pos hle] at d3
          have hpl : pushed.length = 0 := by omega
          have hstopeq : stop = d := by omega
          have hpe : pushed = [] := List.length_eq_zero.mp hpl
          subst hpe
          subst hstopeq
          refine ⟨?_, by omega, d1, d2,
            fun i hi => ⟨(d4 i (by omega)).1, (d4 i (by omega)).2⟩⟩
          rw [hsufS]
          rw [suffixAux_of_le (Nat.le_refl stop)]
          have hskip : RefSkip (s.types.getD stop .Entry) enc enc1 :=
            headRead_refSkip hread .nil
          have hn : s.amounts.getD stop 1 = 1 := by omega
          rw [hn]
          exact .cons (.cons hskip .nil) .nil
        · rw [if_neg hle] at d3
          omega
      next hne =>
        have hge : d ≤ s1.depth := by
          rw [d3]
          split <;> omega
        have hstop1 : stop < s1.depth := by
          rcases Nat.lt_or_ge stop s1.depth with hlt | hge2
          · exact hlt
          · exact absurd (by omega : s1.depth = stop) hne
        obtain ⟨hsl, e1, e2, e3, e4⟩ := ih hstop1 d1 d2 d8 hpos1 h
        rw [hsufS1] at hsl
        obtain ⟨mid, hm1, hm2⟩ := refSkipSlots_append_inv hsl
        have hskip : RefSkip (s.types.getD d .Entry) enc mid := headRead_refSkip hread hm1
        obtain ⟨mid2, hm3, hm4⟩ := refSkipSlots_append_inv hm2
        refine ⟨?_, e1, e2, e3, ?_⟩
        · rw [hsufS]
          by_cases hle : s.amounts.getD d 1 ≤ 1
          · rw [if_pos hle] at hm3
            have hmm := refSkipSlots_nil_inv hm3
            subst hmm
            have hn : s.amounts.getD d 1 = 1 := by omega
            rw [hn]
            exact .cons (.cons hskip .nil) hm4
          · rw [if_neg hle] at hm3
            obtain ⟨mid3, hq1, hq2⟩ := refSkipSlots_cons_inv hm3
            have hmm := refSkipSlots_nil_inv hq2
            subst hmm
            refine .cons ?_ hm4
            have hn : s.amounts.getD d 1 - 1 + 1 = s.amounts.getD d 1 := by omega
            rw [← hn]
            exact .cons hskip hq1
        · intro i hi
          have p1 := e4 i hi
          have p2 := d4 i (by omega)
          exact ⟨p1.1.trans p2.1, p1.2.trans p2.2⟩

theorem refSkipMany_zero_inv {t : TypeOrEntry} {enc enc' : Bytes}
    (h : RefSkipMany t 0 enc enc') : enc' = enc := by
  cases h
  rfl

theorem refSkipMany_succ_inv {t : TypeOrEntry} {n : Nat} {enc enc' : Bytes}
    (h : RefSkipMany t (n + 1) enc enc') :
    ∃ mid, RefSkip t enc mid ∧ RefSkipMany t n mid enc' := by
  cases h with
  | cons h1 h2 => exact ⟨_, h1, h2⟩

/-- Contract of one `Stack::step` call: it performs exactly one reference full
read of the peeked kind, decrements that slot (dropping it when it was the
last instance), and preserves the well-formedness facts. -/
theorem stepO_sim {s s' : Stack} {enc enc' : Bytes} {t : TypeOrEntry} {n : Nat}
    (hpeek : s.peek = some (t, n))
    (hty : s.types.length = MAX_OBJECT_DEPTH)
    (ham : s.amounts.length = MAX_OBJECT_DEPTH)
    (hmax : s.depth ≤ MAX_OBJECT_DEPTH)
    (hpos : ∀ i, i < s.depth → 1 ≤ s.amounts.getD i 1)
    (h : s.stepO enc = some (.ok (some ()), s', enc')) :
    RefSkip t enc enc' ∧
    s'.types.length = MAX_OBJECT_DEPTH ∧
    s'.amounts.length = MAX_OBJECT_DEPTH ∧
    s'.depth ≤ MAX_OBJECT_DEPTH ∧
    (∀ i, i < s'.depth → 1 ≤ s'.amounts.getD i 1) ∧
    (2 ≤ n → s'.peek = some (t, n - 1) ∧ s'.depth = s.depth) ∧
    (n ≤ 1 → s'.depth = s.depth - 1) := by
  obtain ⟨d, hdep⟩ : ∃ d, s.depth = d + 1 := by
    rcases hdem : s.depth with _ | d
    · rw [peek_eq_zero hdem] at hpeek
      simp at hpeek
    · exact ⟨d, rfl⟩
  have hpk2 := peek_eq_succ hdep
  rw [hpeek] at hpk2
  injection hpk2 with hpk2
  have htd : t = s.types.getD d .Entry := congrArg Prod.fst hpk2
  have hnd : n = s.amounts.getD d 1 := congrArg Prod.snd hpk2
  have hn1 : 1 ≤ n := by
    rw [hnd]
    exact hpos d (by omega)
  unfold Stack.stepO at h
  rw [hpeek] at h
  simp only [] at h
  by_cases h1n : 1 < n
  · rw [if_pos h1n] at h
    rcases hlf : Stack.stepLoopF (enc.length + 1) s.depth s enc with _ | res
    · rw [hlf] at h
      simp at h
    · rw [hlf] at h
      rcases res with ⟨rr, s1f, enc1f⟩
      rcases rr with e | u
      · simp at h
      · simp at h
        obtain ⟨hs', he'⟩ := h
        subst hs' he'
        unfold Stack.stepLoopF at hlf
        split at hlf
        next => simp at hlf
        next r s1 enc1 hss =>
          obtain ⟨pushed, hread, hppos, d1, d2, d3, d4, d5, d6, d7, d8⟩ :=
            single_step_suffix hdep hty ham hmax hss
          have hge2 : 2 ≤ s.amounts.getD d 1 := by omega
          rw [if_neg (by omega)] at d3
          have hd5 := d5 hge2
          have hd7 := d7 hge2
          split at hlf
          next hexit =>
            simp at hlf
            obtain ⟨hs1, henc1⟩ := hlf
            subst hs1 henc1
            have hpl : pushed.length = 0 := by omega
            have hpe : pushed = [] := List.length_eq_zero.mp hpl
            subst hpe
            refine ⟨by rw [htd]; exact headRead_refSkip hread .nil,
              d1, d2, by omega, ?_, ?_, by omega⟩
            · intro i hi
              rw [hexit, hdep] at hi
              by_cases hieq : i = d
              · subst hieq
                rw [hd5.2]
                omega
              · rw [(d4 i (by omega)).2]
                exact hpos i (by omega)
            · intro _
              refine ⟨?_, by omega⟩
              rw [peek_eq_succ (by rw [hexit, hdep]), hd5.1, hd5.2, htd, hnd]
          next hne =>
            have hstop1 : s.depth < s1.depth := by
              have hne2 : s1.depth ≠ s.depth := hne
              omega
            obtain ⟨hsl, e1, e2, e3, e4⟩ :=
              stepLoopF_sim hstop1 d1 d2 d8 (by
                intro p hp
                rw [hdep, hd7] at hp
                exact hppos p hp) hlf
            rw [hdep, hd7] at hsl
            refine ⟨by rw [htd]; exact headRead_refSkip hread hsl,
              e2, e3, by omega, ?_, ?_, by omega⟩
            · intro i hi
              rw [e1, hdep] at hi
              have p1 := e4 i (by omega)
              by_cases hieq : i = d
              · subst hieq
                rw [p1.2, hd5.2]
                omega
              · rw [p1.2, (d4 i (by omega)).2]
                exact hpos i (by omega)
            · intro _
              refine ⟨?_, by omega⟩
              have p1 := e4 d (by omega)
              rw [peek_eq_succ (by rw [e1, hdep]), p1.1, p1.2, hd5.1, hd5.2, htd, hnd]
  · rw [if_neg h1n] at h
    have hneq : n = 1 := by omega
    rcases hlf : Stack.stepLoopF (enc.length + 1) (s.depth - 1) s enc with _ | res
    · rw [hlf] at h
      simp at h
    · rw [hlf] at h
      rcases res with ⟨rr, s1f, enc1f⟩
      rcases rr with e | u
      · simp at h
      · simp at h
        obtain ⟨hs', he'⟩ := h
        subst hs' he'
        obtain ⟨hsl, e1, e2, e3, e4⟩ := stepLoopF_sim (by omega) hty ham hmax
          (by
            intro p hp
            obtain ⟨i, hi1, hi2, hpe⟩ := suffixAux_mem hp
            subst hpe
            exact hpos i (by omega)) hlf
        have hsufS : s.suffix (s.depth - 1) = [(t, n)] := by
          unfold Stack.suffix
          rw [hdep]
          simp only [Nat.add_sub_cancel]
          rw [suffixAux_cons (Nat.le_refl d)]
          rw [suffixAux_of_le (Nat.le_refl d)]
          rw [htd, hnd]
        rw [hsufS] at hsl
        obtain ⟨mid, hm1, hm2⟩ := refSkipSlots_cons_inv hsl
        have hmm := refSkipSlots_nil_inv hm2
        subst hmm
        rw [hneq] at hm1
        obtain ⟨mid2, hq1, hq2⟩ := refSkipMany_succ_inv hm1
        have hq3 := refSkipMany_zero_inv hq2
        subst hq3
        refine ⟨hq1, e2, e3, by omega, ?_, fun h2 => absurd h2 (by omega), fun _ => e1⟩
        intro i hi
        rw [e1] at hi
        rw [(e4 i (by omega)).2]
        exact hpos i (by omega)

theorem dropSteps_of_error : ∀ (k : Nat) (e : Epee), e.error.isSome →
    dropSteps k e = e := by
  intro k
  induction k with
  | zero => intro e _; rfl
  | succ k ih =>
    intro e he
    unfold dropSteps
    rcases herr : e.error with _ | er
    · rw [herr] at he
      simp at he
    · simp only []

theorem stepO_peek_some {s : Stack} {enc : Bytes} {t : TypeOrEntry} {n : Nat}
    (hpeek : s.peek = some (t, n)) {r : Option Unit} {s' : Stack} {enc' : Bytes}
    (h : s.stepO enc = some (.ok r, s', enc')) : r = some () := by
  unfold Stack.stepO at h
  rw [hpeek] at h
  simp only [] at h
  split at h
  next => simp at h
  next => simp at h
  next =>
    simp at h
    exact h.1.symm

theorem dropSteps_sim : ∀ (k : Nat) (e : Epee) (t : TypeOrEntry) (m : Nat),
    e.error = none →
    e.stack.peek = some (t, m) →
    k ≤ m →
    e.stack.types.length = MAX_OBJECT_DEPTH →
    e.stack.amounts.length = MAX_OBJECT_DEPTH →
    e.stack.depth ≤ MAX_OBJECT_DEPTH →
    (∀ i, i < e.stack.depth → 1 ≤ e.stack.amounts.getD i 1) →
    (dropSteps k e).error = none →
    RefSkipMany t k e.current_encoding_state (dropSteps k e).current_encoding_state ∧
    (k < m → (dropSteps k e).stack.peek = some (t, m - k) ∧
      (dropSteps k e).stack.depth = e.stack.depth) ∧
    (k = m → 1 ≤ m → (dropSteps k e).stack.depth = e.stack.depth - 1) := by
  intro k
  induction k with
  | zero =>
    intro e t m _ hpeek _ _ _ _ _ _
    exact ⟨.nil, fun _ => ⟨by rw [Nat.sub_zero]; exact hpeek, rfl⟩,
      fun h0 h1 => by omega⟩
  | succ k ih =>
    intro e t m herr hpeek hkm hty ham hmax hpos hend
    obtain ⟨res, hres⟩ :=
      Option.isSome_iff_exists.mp (stepO_isSome e.stack e.current_encoding_state)
    have hstep : e.stack.step e.current_encoding_state = res := step_eq_of_stepO hres
    rcases res with ⟨r, s1, enc1⟩
    rcases r with er | u
    · have hd1 : dropSteps (k + 1) e = dropSteps k
          { current_encoding_state := enc1, stack := s1, error := some er } := by
        conv_lhs => unfold dropSteps
        rw [herr]
        split
        next v heq => simp at heq
        next =>
          split
          next r2 s2 enc2 heq =>
            rw [hstep] at heq
            injection heq with h1 h23
            injection h23 with h2 h3
            subst h1 h2 h3
            rfl
      rw [hd1] at hend
      rw [dropSteps_of_error k _ (by simp)] at hend
      simp at hend
    · have hu : u = some () := stepO_peek_some hpeek hres
      subst hu
      have hd1 : dropSteps (k + 1) e = dropSteps k
          { current_encoding_state := enc1, stack := s1, error := none } := by
        conv_lhs => unfold dropSteps
        rw [herr]
        split
        next v heq => simp at heq
        next =>
          split
          next r2 s2 enc2 heq =>
            rw [hstep] at heq
            injection heq with h1 h23
            injection h23 with h2 h3
            subst h1 h2 h3
            rfl
      obtain ⟨hskip, w1, w2, w3, w4, w5, w6⟩ :=
        stepO_sim hpeek hty ham hmax hpos hres
      rw [hd1]
      rw [hd1] at hend
      rcases k with _ | k2
      · refine ⟨.cons hskip .nil, ?_, ?_⟩
        · intro h1m
          obtain ⟨hp1, hp2⟩ := w5 (by omega)
          exact ⟨hp1, hp2⟩
        · intro h1m _
          exact w6 (by omega)
      · have hm2 : 2 ≤ m := by omega
        obtain ⟨hpeek1, hdepth1⟩ := w5 hm2
        obtain ⟨ih1, ih2, ih3⟩ :=
          ih _ t (m - 1) rfl hpeek1 (by omega) w1 w2 w3 w4 hend
        refine ⟨.cons hskip ih1, ?_, ?_⟩
        · intro hlt
          obtain ⟨hp1, hp2⟩ := ih2 (by omega)
          refine ⟨?_, by rw [hp2]; exact hdepth1⟩
          rw [hp1]
          congr 2
          omega
        · intro heqm _
          rw [ih3 (by omega) (by omega)]
          rw [hdepth1]

/-! ### Equality tests for `Except` results, for evaluating concrete runs -/

instance {ε α : Type} [DecidableEq ε] [DecidableEq α] : DecidableEq (Except ε α) := fun x y =>
  match x, y with
  | .error a, .error b =>
    if h : a = b then .isTrue (by rw [h]) else .isFalse (fun hc => h (by injection hc))
  | .error _, .ok _ => .isFalse (fun hc => Except.noConfusion hc)
  | .ok _, .error _ => .isFalse (fun hc => Except.noConfusion hc)
  | .ok a, .ok b =>
    if h : a = b then .isTrue (by rw [h]) else .isFalse (fun hc => h (by injection hc))

/-- A stack whose depth already equals the bound (every slot in use). -/
def stackAtMax : Stack :=
  { types := List.replicate MAX_OBJECT_DEPTH (.Type .Object)
    amounts := List.replicate MAX_OBJECT_DEPTH 1
    depth := MAX_OBJECT_DEPTH }

/-- A depth-1 stack whose single slot schedules one object field (`Entry`). -/
def entryStack : Stack :=
  { types := List.replicate MAX_OBJECT_DEPTH TypeOrEntry.Entry
    amounts := List.replicate MAX_OBJECT_DEPTH 1
    depth := 1 }

/-- The stack states reachable from `Stack::root_object` by arbitrary sequences
of successful `push` calls and of `pop` calls. -/
inductive Reachable : Stack → Prop where
  | root : Reachable Stack.root_object
  | push : ∀ {s s' : Stack} {k : TypeOrEntry} {a : Nat},
      Reachable s → s.push k a = .ok s' → Reachable s'
  | pop : ∀ {s : Stack}, Reachable s → Reachable (s.pop).2

theorem reachable_wf {s : Stack} (h : Reachable s) :
    s.types.length = MAX_OBJECT_DEPTH ∧
    s.amounts.length = MAX_OBJECT_DEPTH ∧
    s.depth ≤ MAX_OBJECT_DEPTH ∧
    ∀ i, i < s.depth → 1 ≤ s.amounts.getD i 1 := by
  induction h with
  | root => exact ⟨by decide, by decide, by decide, by decide⟩
  | push hr hp ih =>
    rename_i s0 s1 k0 a0
    obtain ⟨hty, ham, hdep, hpos⟩ := ih
    obtain ⟨hne, hcase⟩ := push_ok_char hp
    rcases hcase with ⟨ha, hs⟩ | ⟨ha, hs⟩
    · subst hs
      exact ⟨hty, ham, hdep, hpos⟩
    · subst hs
      refine ⟨by simpa using hty, by simpa using ham, ?_, ?_⟩
      · show s0.depth + 1 ≤ MAX_OBJECT_DEPTH
        omega
      · intro i hi
        have hi2 : i < s0.depth + 1 := hi
        show 1 ≤ (s0.amounts.set s0.depth a0).getD i 1
        by_cases hid : i = s0.depth
        · subst hid
          rw [getD_set_self (by omega)]
          omega
        · rw [getD_set_ne (Ne.symm hid)]
          exact hpos i (by omega)
  | pop hr ih =>
    obtain ⟨hty, ham, hdep, hpos⟩ := ih
    rename_i s0
    rcases hdep2 : s0.depth with _ | d
    · rw [pop_eq_zero hdep2]
      exact ⟨hty, ham, hdep, hpos⟩
    · obtain ⟨_, pf⟩ := pop_popFacts hdep2 ham hdep
      obtain ⟨pty, plen, pdep, pne, pd⟩ := pf
      refine ⟨by rw [pty]; exact hty, plen.trans ham, by rw [pdep]; split <;> omega, ?_⟩
      intro i hi
      rw [pdep] at hi
      by_cases hle : s0.amounts.getD d 1 ≤ 1
      · rw [if_pos hle] at hi
        rw [pne i (by omega)]
        exact hpos i (by omega)
      · rw [if_neg hle] at hi
        by_cases hid : i = d
        · subst hid
          rw [pd, if_neg hle]
          omega
        · rw [pne i hid]
          exact hpos i (by omega)

/-! ### Little-endian encodings, for the varint claims -/

/-- A `width`-byte little-endian encoding of `x` (the byte shape `read_varint`
consumes; used to state the non-minimal-width tolerance). -/
def leBytes : Nat → Nat → Bytes
  | 0, _ => []
  | n + 1, x => (x % 256) :: leBytes n (x / 256)

theorem leBytes_succ (n x : Nat) :
    leBytes (n + 1) x = (x % 256) :: leBytes n (x / 256) := by
  simp [leBytes]

theorem leBytes_length : ∀ (n x : Nat), (leBytes n x).length = n := by
  intro n
  induction n with
  | zero => intro x; rfl
  | succ m ih =>
    intro x
    rw [leBytes_succ]
    simp [ih]

theorem leBytes_lt : ∀ (n x b : Nat), b ∈ leBytes n x → b < 256 := by
  intro n
  induction n with
  | zero => intro x b hb; simp [leBytes] at hb
  | succ m ih =>
    intro x b hb
    rw [leBytes_succ] at hb
    rcases List.mem_cons.mp hb with h | h
    · subst h
      exact Nat.mod_lt _ (by omega)
    · exact ih _ b h

theorem leNat_leBytes : ∀ (n x : Nat), x < 2 ^ (8 * n) → leNat (leBytes n x) = x := by
  intro n
  induction n with
  | zero =>
    intro x hx
    simp at hx
    simp [leBytes, leNat, hx]
  | succ m ih =>
    intro x hx
    rw [leBytes_succ]
    show x % 256 + 256 * leNat (leBytes m (x / 256)) = x
    rw [ih (x / 256) ?hdiv]
    · omega
    case hdiv =>
      have hpow : 2 ^ (8 * (m + 1)) = 256 * 2 ^ (8 * m) := by
        rw [show 8 * (m + 1) = 8 + 8 * m from by omega, Nat.pow_add]
      rw [hpow] at hx
      exact Nat.div_lt_of_lt_mul hx

theorem lor_shiftLeft_eq_add {a b k : Nat} (h : a < 2 ^ k) :
    a ||| (b <<< k) = a + 2 ^ k * b := by
  rw [Nat.shiftLeft_eq, Nat.mul_comm b (2 ^ k), Nat.lor_comm, ← Nat.mul_add_lt_is_or h b]
  omega

/-- The accumulation loop of `read_varint` assembles exactly the little-endian
value of the bytes it consumes, shifted into position `i`. -/
theorem varint_loop_spec : ∀ (c i vi : Nat) (enc : Bytes),
    c ≤ enc.length →
    (∀ b, b ∈ enc.take c → b < 256) →
    vi < 2 ^ (i * 8) →
    varint_loop vi i c enc = (.ok (vi + 2 ^ (i * 8) * leNat (enc.take c)), enc.drop c) := by
  intro c
  induction c with
  | zero =>
    intro i vi enc _ _ _
    simp [varint_loop, leNat]
  | succ c ih =>
    intro i vi enc hlen hbnd hvi
    rcases enc with _ | ⟨b, rest⟩
    · simp at hlen
    · have hb : b < 256 := hbnd b (by simp)
      have hbound : vi ||| (b <<< (i * 8)) < 2 ^ ((i + 1) * 8) := by
        rw [lor_shiftLeft_eq_add hvi]
        have h1 : 2 ^ (i * 8) * b ≤ 2 ^ (i * 8) * 255 := Nat.mul_le_mul_left _ (by omega)
        have h2 : 2 ^ ((i + 1) * 8) = 2 ^ (i * 8) * 255 + 2 ^ (i * 8) := by
          rw [Nat.succ_mul, Nat.pow_add]
          ring
        omega
      have hrec := ih (i + 1) (vi ||| (b <<< (i * 8))) rest (by simpa using hlen)
        (fun x hx => hbnd x (by simp; right; simpa using hx)) hbound
      unfold varint_loop
      rw [read_byte_cons]
      simp only []
      rw [hrec]
      have hv2 : vi ||| (b <<< (i * 8)) = vi + 2 ^ (i * 8) * b := lor_shiftLeft_eq_add hvi
      rw [hv2]
      have hpow : 2 ^ ((i + 1) * 8) = 2 ^ (i * 8) * 256 := by
        rw [Nat.succ_mul, Nat.pow_add]
      have harith : vi + 2 ^ (i * 8) * b + 2 ^ ((i + 1) * 8) * leNat (rest.take c) =
          vi + 2 ^ (i * 8) * leNat ((b :: rest).take (c + 1)) := by
        rw [hpow]
        show _ = vi + 2 ^ (i * 8) * leNat (b :: rest.take c)
        rw [show leNat (b :: rest.take c) = b + 256 * leNat (rest.take c) from rfl]
        ring
      rw [harith]
      rfl

/-- The full characterization of `read_varint` on a non-empty byte source: the
low two bits of the first byte select the width, the consumed bytes assemble
little-endian, and the result is that value shifted right by two. -/
theorem read_varint_spec {b0 : Nat} {rest : Bytes}
    (hb0 : b0 < 256)
    (hbnd : ∀ x, x ∈ rest.take (varint_width (b0 &&& 3) - 1) → x < 256)
    (hlen : varint_width (b0 &&& 3) - 1 ≤ rest.length) :
    read_varint (b0 :: rest) =
      (.ok (leNat (b0 :: rest.take (varint_width (b0 &&& 3) - 1)) >>> 2),
       rest.drop (varint_width (b0 &&& 3) - 1)) := by
  unfold read_varint
  rw [read_byte_cons]
  simp only []
  rw [varint_loop_spec (varint_width (b0 &&& 3) - 1) 1 b0 rest hlen hbnd
    (by norm_num; exact hb0)]
  rfl

theorem varint_width_pos (c : Nat) : 1 ≤ varint_width c := by
  rcases c with _ | _ | _ | n
  · exact (by decide : (1 : Nat) ≤ 1)
  · exact (by decide : (1 : Nat) ≤ 2)
  · exact (by decide : (1 : Nat) ≤ 4)
  · exact (by decide : (1 : Nat) ≤ 8)

/-- Decoding an arbitrary-width little-endian varint encoding of `v` tagged
with width code `c` yields `v` again, whether or not the width is minimal. -/
theorem read_varint_leBytes {c v : Nat} {tail : Bytes}
    (hc : c < 4) (hv : v < 2 ^ (8 * varint_width c - 2)) :
    read_varint (leBytes (varint_width c) ((v <<< 2) ||| c) ++ tail) = (.ok v, tail) := by
  obtain ⟨n, hn⟩ : ∃ n, varint_width c = n + 1 :=
    ⟨varint_width c - 1, by have := varint_width_pos c; omega⟩
  have hX : (v <<< 2) ||| c = 4 * v + c := by
    have h4 : (2 : Nat) ^ 2 = 4 := rfl
    rw [Nat.lor_comm, lor_shiftLeft_eq_add (show c < 2 ^ 2 from by omega), h4]
    omega
  have hXlt : (v <<< 2) ||| c < 2 ^ (8 * varint_width c) := by
    rw [hX]
    have hsplit : 2 ^ (8 * varint_width c) = 4 * 2 ^ (8 * varint_width c - 2) := by
      rw [show 4 = 2 ^ 2 from rfl, ← Nat.pow_add]
      congr 1
      have := varint_width_pos c
      omega
    omega
  set X := (v <<< 2) ||| c with hXdef
  have hb0 : X % 256 < 256 := Nat.mod_lt _ (by omega)
  have hb3 : X % 256 &&& 3 = c := by
    have h34 := Nat.and_pow_two_sub_one_eq_mod (X % 256) 2
    norm_num at h34
    rw [h34, hX]
    omega
  have hrest : leBytes (varint_width c) X ++ tail =
      (X % 256) :: (leBytes n (X / 256) ++ tail) := by
    rw [hn, leBytes_succ]
    rfl
  have hlenA : (leBytes n (X / 256)).length = n := leBytes_length n _
  have htake : (leBytes n (X / 256) ++ tail).take n = leBytes n (X / 256) :=
    List.take_left' hlenA
  have hdrop : (leBytes n (X / 256) ++ tail).drop n = tail :=
    List.drop_left' hlenA
  have hwn : varint_width (X % 256 &&& 3) - 1 = n := by
    rw [hb3, hn]
    omega
  rw [hrest]
  rw [read_varint_spec hb0 ?bnd ?len]
  case bnd =>
    intro x hx
    rw [hwn, htake] at hx
    exact leBytes_lt n _ x hx
  case len =>
    rw [hwn]
    simp [hlenA]
  rw [hwn, htake, hdrop]
  have hcons : (X % 256) :: leBytes n (X / 256) = leBytes (varint_width c) X := by
    rw [hn, leBytes_succ]
  rw [hcons]
  rw [leNat_leBytes (varint_width c) X hXlt]
  have hshift : X >>> 2 = v := by
    rw [Nat.shiftRight_eq_div_pow, hX]
    omega
  rw [hshift]

/-- The decoder state after `to_primitive` pops the scheduled slot and consumes
the `wd` bytes it returns; the sticky error stays clear. -/
def popRead (e : Epee) (wd : Nat) : Epee :=
  { current_encoding_state := e.current_encoding_state.drop wd
    stack := (e.stack.pop).2
    error := none }

/-- The full characterization of `to_primitive`: `TypeError` unless the entry
is one value of the requested kind (before any sticky-error check); then the
stored error if any; then pop the slot and read `wd` bytes, little-endian. -/
theorem to_primitive_spec (ent : EpeeEntry) (k : Ty) (wd : Nat) (e : Epee) :
    (ent.kind ≠ k ∨ ent.len ≠ 1 → ent.to_primitive k wd e = (.error .TypeError, e)) ∧
    (ent.kind = k → ent.len = 1 →
      (∀ er, e.error = some er → ent.to_primitive k wd e = (.error er, e)) ∧
      (e.error = none →
        (wd ≤ e.current_encoding_state.length →
          ent.to_primitive k wd e =
            (.ok (e.current_encoding_state.take wd), popRead e wd)) ∧
        (e.current_encoding_state.length < wd →
          ent.to_primitive k wd e = (.error (.Short wd), popRead e 0)))) := by
  constructor
  · intro h
    unfold EpeeEntry.to_primitive
    rw [if_pos h]
  · intro hk hl
    have hneg : ¬(ent.kind ≠ k ∨ ent.len ≠ 1) := by
      push_neg
      exact ⟨hk, hl⟩
    constructor
    · intro er herr
      unfold EpeeEntry.to_primitive
      rw [if_neg hneg, herr]
    · intro herr
      constructor
      · intro hwd
        unfold EpeeEntry.to_primitive
        rw [if_neg hneg, herr]
        simp only []
        have hr : read_into_slice wd e.current_encoding_state =
            (.ok (e.current_encoding_state.take wd), e.current_encoding_state.drop wd) := by
          unfold read_into_slice read_bytes
          rw [if_neg (by omega)]
        rw [hr]
        rfl
      · intro hwd
        unfold EpeeEntry.to_primitive
        rw [if_neg hneg, herr]
        simp only []
        have hr : read_into_slice wd e.current_encoding_state =
            (.error (.Short wd), e.current_encoding_state) := by
          unfold read_into_slice read_bytes
          rw [if_pos hwd]
        rw [hr]
        rfl

/-! ### Claims C3, C5, C9, C10 -/

/-- C3 (corrected): the source checks the depth bound *before* the zero-amount
early return, so `push(kind, 0)` succeeds with the stack unchanged only when
the depth is below the bound; at the bound every `push` — zero amount included
— fails with `DepthLimitExceeded`; below the bound a non-zero amount writes
`kind`/`amount` into the slot at the current depth and increments the depth. -/
theorem c3_push_zero_amount_and_depth_bound (s : Stack) (kind : TypeOrEntry) (amount : Nat) :
    (s.depth = MAX_OBJECT_DEPTH → s.push kind amount = .error .DepthLimitExceeded) ∧
    (s.depth ≠ MAX_OBJECT_DEPTH → amount = 0 → s.push kind amount = .ok s) ∧
    (s.depth ≠ MAX_OBJECT_DEPTH → 1 ≤ amount →
      s.push kind amount =
        .ok { s with
              types := s.types.set s.depth kind
              amounts := s.amounts.set s.depth amount
              depth := s.depth + 1 }) := by
  refine ⟨?_, ?_, ?_⟩
  · intro hd
    unfold Stack.push
    rw [if_pos hd]
  · intro hd h0
    unfold Stack.push
    rw [if_neg hd, if_pos h0]
  · intro hd h1
    unfold Stack.push
    rw [if_neg hd, if_neg (by omega)]

/-- Witness for C3: at the root stack (below the bound) a zero-amount push
returns success with the stack unchanged. -/
theorem c3_push_zero_amount_and_depth_bound_witness :
    Stack.root_object.push TypeOrEntry.Entry 0 = .ok Stack.root_object :=
  (c3_push_zero_amount_and_depth_bound Stack.root_object .Entry 0).2.1 (by decide) rfl

/-- Counterexample to C3 as stated: at the depth bound, `push(kind, 0)` does
*not* return success with the stack unchanged — the depth check fires before
the zero-amount early return and the call fails with `DepthLimitExceeded`. -/
theorem c3_push_zero_at_bound_counterexample :
    stackAtMax.depth = MAX_OBJECT_DEPTH ∧
    stackAtMax.push TypeOrEntry.Entry 0 = .error .DepthLimitExceeded ∧
    stackAtMax.push TypeOrEntry.Entry 0 ≠ .ok stackAtMax :=
  ⟨rfl, rfl, by decide⟩

/-- C5: from `Stack.root_object` (depth 1, holding one `Object` slot with
remaining count 1), every reachable stack keeps its depth within the bound
`MAX_OBJECT_DEPTH = 100 + 2`, every live slot keeps a remaining count of at
least 1, `push` at the bound refuses with `DepthLimitExceeded` rather than
growing, and `pop` decrements the top slot's remaining count, dropping the
slot (decrementing the depth) exactly when that count reaches zero. -/
theorem c5_stack_invariants (s : Stack) (h : Reachable s) :
    (Stack.root_object.depth = 1 ∧ Stack.root_object.peek = some (.Type .Object, 1)) ∧
    (MAX_OBJECT_DEPTH = 100 + 2 ∧ s.depth ≤ MAX_OBJECT_DEPTH) ∧
    (∀ i, i < s.depth → 1 ≤ s.amounts.getD i 1) ∧
    (∀ kind amount, s.depth = MAX_OBJECT_DEPTH →
      s.push kind amount = .error .DepthLimitExceeded) ∧
    (∀ d, s.depth = d + 1 →
      ((s.pop).2.depth = if s.amounts.getD d 1 - 1 = 0 then d else d + 1) ∧
      (s.amounts.getD d 1 - 1 ≠ 0 →
        (s.pop).2.amounts.getD d 1 = s.amounts.getD d 1 - 1)) := by
  obtain ⟨hty, ham, hdepth, hpos⟩ := reachable_wf h
  refine ⟨⟨rfl, by decide⟩, ⟨rfl, hdepth⟩, hpos, ?_, ?_⟩
  · intro kind amount hd
    unfold Stack.push
    rw [if_pos hd]
  · intro d hdep
    by_cases hz : s.amounts.getD d 1 - 1 = 0
    · refine ⟨?_, fun hnz => absurd hz hnz⟩
      rw [pop_eq_succ hdep, if_pos hz, if_pos hz]
    · refine ⟨?_, fun _ => ?_⟩
      · rw [pop_eq_succ hdep, if_neg hz, if_neg hz]
        exact hdep
      · rw [pop_eq_succ hdep, if_neg hz]
        exact getD_set_self (by omega)

/-- Witness for C5 at the root stack: the depth bound and the slot-count
invariant hold there. -/
theorem c5_stack_invariants_witness :
    Stack.root_object.depth ≤ MAX_OBJECT_DEPTH ∧
    (1 : Nat) ≤ Stack.root_object.amounts.getD 0 1 :=
  ⟨(c5_stack_invariants Stack.root_object Reachable.root).2.1.2,
   (c5_stack_invariants Stack.root_object Reachable.root).2.2.1 0 (by decide)⟩

/-- C9: a key length byte of zero makes `read_key` fail with `EmptyKey`, and
the failing read consumes exactly that single length byte — the stream
position after the error is the remainder immediately past it. -/
theorem c9_empty_key_single_byte (rest : Bytes) :
    read_key (0 :: rest) = (.error .EmptyKey, rest) := by
  unfold read_key
  rw [read_byte_cons]
  rfl

/-- C10: `Epee::new` fails with `Short 8` (not `InvalidHeader`) on inputs
shorter than the 8-byte header; with `InvalidVersion none` when the input is
exactly the magic header with no ninth byte; and with `InvalidVersion (some v)`
when the header matches and the ninth byte `v` is not 1 — returning only an
error, never a decoder, in each case. -/
theorem c10_epee_new_header_failures :
    (∀ enc : Bytes, enc.length < 8 → Epee.new enc = .error (.Short 8)) ∧
    Epee.new HEADER = .error (.InvalidVersion none) ∧
    (∀ (v : Nat) (rest : Bytes), v ≠ 1 →
      Epee.new (HEADER ++ v :: rest) = .error (.InvalidVersion (some v))) := by
  refine ⟨?_, rfl, ?_⟩
  · intro enc h
    have hr : read_into_slice HEADER.length enc = (.error (.Short 8), enc) := by
      unfold read_into_slice read_bytes
      rw [if_pos (by simpa using h)]
      rfl
    unfold Epee.new
    rw [hr]
  · intro v rest hv
    have hr : read_into_slice HEADER.length (HEADER ++ v :: rest) = (.ok HEADER, v :: rest) := by
      unfold read_into_slice read_bytes
      have hlen : ¬ (HEADER ++ v :: rest).length < HEADER.length := by
        simp only [List.length_append, List.length_cons]
        omega
      rw [if_neg hlen, List.take_left, List.drop_left]
    unfold Epee.new
    rw [hr]
    simp only []
    rw [read_byte_cons]
    simp only []
    rw [if_neg (fun hc => hc rfl)]
    rw [if_pos (fun hc => hv (by injection hc))]

/-- Witness for C10: the empty input and a version byte of 2. -/
theorem c10_epee_new_header_failures_witness :
    Epee.new [] = .error (.Short 8) ∧
    Epee.new (HEADER ++ 2 :: []) = .error (.InvalidVersion (some 2)) :=
  ⟨c10_epee_new_header_failures.1 [] (by decide),
   c10_epee_new_header_failures.2.2 2 [] (by decide)⟩

/-! ### Claims C7 and C4 -/

/-- C7: a type tag byte's bits 0 ..= 6 (the value `b &&& 127 = b % 128`) select
one of exactly twelve type codes, `Ty.code` mapping `Int64 ..= Object` to
`1 ..= 12` injectively; every other 7-bit value fails with `UnrecognizedType`;
bit 7 (`b &&& 128`, non-zero exactly when `b.testBit 7`) is the array flag:
when it is set a varint element count follows, and when it is clear the count
is exactly 1 with no further bytes consumed for the count. -/
theorem c7_type_tag_byte (b : Nat) (rest : Bytes) :
    (b &&& 127 = b % 128 ∧ (b &&& 128 ≠ 0 ↔ b.testBit 7 = true)) ∧
    (Ty.code .Int64 = 1 ∧ Ty.code .Int32 = 2 ∧ Ty.code .Int16 = 3 ∧ Ty.code .Int8 = 4 ∧
      Ty.code .Uint64 = 5 ∧ Ty.code .Uint32 = 6 ∧ Ty.code .Uint16 = 7 ∧ Ty.code .Uint8 = 8 ∧
      Ty.code .Double = 9 ∧ Ty.code .String = 10 ∧ Ty.code .Bool = 11 ∧ Ty.code .Object = 12) ∧
    (∀ t u : Ty, t.code = u.code → t = u) ∧
    ((∀ t : Ty, b &&& 127 ≠ t.code) → Ty.read (b :: rest) = (.error .UnrecognizedType, rest)) ∧
    (∀ t : Ty, b &&& 127 = t.code →
      (b &&& 128 = 0 → Ty.read (b :: rest) = (.ok (t, 1), rest)) ∧
      (b &&& 128 ≠ 0 → Ty.read (b :: rest) =
        ((read_varint rest).1.map (fun len => (t, len)), (read_varint rest).2))) := by
  refine ⟨⟨?_, ?_⟩, by decide, ?_, ?_, ?_⟩
  · have h := Nat.and_pow_two_sub_one_eq_mod b 7
    norm_num at h
    exact h
  · rw [show (128 : Nat) = 2 ^ 7 from rfl, Nat.and_two_pow]
    cases hb7 : b.testBit 7 <;> simp
  · intro t u
    rcases t <;> rcases u <;> decide
  · intro ht
    unfold Ty.read
    rw [read_byte_cons]
    simp only []
    split
    next heq => rfl
    next kind heq =>
      split at heq
      next h1 => exact absurd h1 (ht .Int64)
      next h1 => exact absurd h1 (ht .Int32)
      next h1 => exact absurd h1 (ht .Int16)
      next h1 => exact absurd h1 (ht .Int8)
      next h1 => exact absurd h1 (ht .Uint64)
      next h1 => exact absurd h1 (ht .Uint32)
      next h1 => exact absurd h1 (ht .Uint16)
      next h1 => exact absurd h1 (ht .Uint8)
      next h1 => exact absurd h1 (ht .Double)
      next h1 => exact absurd h1 (ht .String)
      next h1 => exact absurd h1 (ht .Bool)
      next h1 => exact absurd h1 (ht .Object)
      next => exact Option.noConfusion heq
  · intro t hcode
    have hform : Ty.read (b :: rest) =
        if b &&& 128 ≠ 0 then
          ((read_varint rest).1.map (fun len => (t, len)), (read_varint rest).2)
        else (.ok (t, 1), rest) := by
      unfold Ty.read
      rw [read_byte_cons]
      simp only []
      split
      next heq =>
        rw [hcode] at heq
        rcases t <;> exact absurd heq (by decide)
      next kind heq =>
        have hkt : some kind = some t := by
          rw [hcode] at heq
          rcases t <;> exact heq.symm.trans (by rfl)
        injection hkt with hkt
        subst hkt
        by_cases harr : b &&& 128 ≠ 0
        · rw [if_pos harr, if_pos harr]
          rcases hrv : read_varint rest with ⟨r, e2⟩
          rcases r with er | len <;> rfl
        · rw [if_neg harr, if_neg harr]
    exact ⟨fun h0 => by rw [hform, if_neg (fun hc => hc h0)],
           fun hne => by rw [hform, if_pos hne]⟩

/-- Witness for C7: tag byte 5 is a plain (non-array) `u64`. -/
theorem c7_type_tag_byte_witness :
    Ty.read (5 :: [3]) = (.ok (.Uint64, 1), [3]) :=
  ((c7_type_tag_byte 5 [3]).2.2.2.2 .Uint64 (by decide)).1 (by decide)

/-- C4: the low two bits of `read_varint`'s first byte select a total encoded
width of 1, 2, 4 or 8 bytes (codes 0 ..= 3); the first byte and all subsequent
bytes assemble little-endian and the result is that integer shifted right by
two; hence a value encoded at any chosen width — minimal or not — decodes to
itself, so non-minimal encodings are accepted. -/
theorem c4_read_varint_le_and_tolerance (b0 : Nat) (rest : Bytes) (c v : Nat) (tail : Bytes) :
    (varint_width 0 = 1 ∧ varint_width 1 = 2 ∧ varint_width 2 = 4 ∧ varint_width 3 = 8) ∧
    (b0 < 256 →
      (∀ x, x ∈ rest.take (varint_width (b0 &&& 3) - 1) → x < 256) →
      varint_width (b0 &&& 3) - 1 ≤ rest.length →
      read_varint (b0 :: rest) =
        (.ok (leNat (b0 :: rest.take (varint_width (b0 &&& 3) - 1)) >>> 2),
         rest.drop (varint_width (b0 &&& 3) - 1))) ∧
    (c < 4 → v < 2 ^ (8 * varint_width c - 2) →
      read_varint (leBytes (varint_width c) ((v <<< 2) ||| c) ++ tail) = (.ok v, tail)) :=
  ⟨by decide, fun h1 h2 h3 => read_varint_spec h1 h2 h3,
    fun h1 h2 => read_varint_leBytes h1 h2⟩

/-- Witness for C4: the two-byte encoding `[1, 5]` decodes to
`(1 + 256 * 5) / 4 = 320`, and value 3 round-trips through the non-minimal
two-byte width. -/
theorem c4_read_varint_le_and_tolerance_witness :
    read_varint [1, 5, 9] = (.ok 320, [9]) ∧
    read_varint (leBytes (varint_width 1) ((3 <<< 2) ||| 1) ++ [7]) = (.ok 3, [7]) := by
  constructor
  · have h := (c4_read_varint_le_and_tolerance 1 [5, 9] 0 0 []).2.1
      (by decide) (by decide) (by decide)
    rw [h]
    decide
  · exact (c4_read_varint_le_and_tolerance 0 [] 1 3 [7]).2.2 (by decide) (by decide)

/-! ### Claims C6 and C2 -/

/-- C6: each typed getter fails with `TypeError` unless the entry's kind is the
requested primitive with `len = 1`; with a clear sticky error it then decodes
its value little-endian from exactly the next fixed-width bytes (one byte read
as non-zero for `to_bool`), failing with `Short width` without consuming bytes
when fewer remain. -/
theorem c6_typed_getters (ent : EpeeEntry) (e : Epee) :
    ((ent.kind ≠ .Int64 ∨ ent.len ≠ 1 → ent.to_i64 e = (.error .TypeError, e)) ∧
      (ent.kind = .Int64 → ent.len = 1 → e.error = none →
        (8 ≤ e.current_encoding_state.length →
          ent.to_i64 e =
            (.ok (toSigned 64 (leNat (e.current_encoding_state.take 8))), popRead e 8)) ∧
        (e.current_encoding_state.length < 8 →
          ent.to_i64 e = (.error (.Short 8), popRead e 0)))) ∧
    ((ent.kind ≠ .Int32 ∨ ent.len ≠ 1 → ent.to_i32 e = (.error .TypeError, e)) ∧
      (ent.kind = .Int32 → ent.len = 1 → e.error = none →
        (4 ≤ e.current_encoding_state.length →
          ent.to_i32 e =
            (.ok (toSigned 32 (leNat (e.current_encoding_state.take 4))), popRead e 4)) ∧
        (e.current_encoding_state.length < 4 →
          ent.to_i32 e = (.error (.Short 4), popRead e 0)))) ∧
    ((ent.kind ≠ .Int16 ∨ ent.len ≠ 1 → ent.to_i16 e = (.error .TypeError, e)) ∧
      (ent.kind = .Int16 → ent.len = 1 → e.error = none →
        (2 ≤ e.current_encoding_state.length →
          ent.to_i16 e =
            (.ok (toSigned 16 (leNat (e.current_encoding_state.take 2))), popRead e 2)) ∧
        (e.current_encoding_state.length < 2 →
          ent.to_i16 e = (.error (.Short 2), popRead e 0)))) ∧
    ((ent.kind ≠ .Int8 ∨ ent.len ≠ 1 → ent.to_i8 e = (.error .TypeError, e)) ∧
      (ent.kind = .Int8 → ent.len = 1 → e.error = none →
        (1 ≤ e.current_encoding_state.length →
          ent.to_i8 e =
            (.ok (toSigned 8 (leNat (e.current_encoding_state.take 1))), popRead e 1)) ∧
        (e.current_encoding_state.length < 1 →
          ent.to_i8 e = (.error (.Short 1), popRead e 0)))) ∧
    ((ent.kind ≠ .Uint64 ∨ ent.len ≠ 1 → ent.to_u64 e = (.error .TypeError, e)) ∧
      (ent.kind = .Uint64 → ent.len = 1 → e.error = none →
        (8 ≤ e.current_encoding_state.length →
          ent.to_u64 e = (.ok (leNat (e.current_encoding_state.take 8)), popRead e 8)) ∧
        (e.current_encoding_state.length < 8 →
          ent.to_u64 e = (.error (.Short 8), popRead e 0)))) ∧
    ((ent.kind ≠ .Uint32 ∨ ent.len ≠ 1 → ent.to_u32 e = (.error .TypeError, e)) ∧
      (ent.kind = .Uint32 → ent.len = 1 → e.error = none →
        (4 ≤ e.current_encoding_state.length →
          ent.to_u32 e = (.ok (leNat (e.current_encoding_state.take 4)), popRead e 4)) ∧
        (e.current_encoding_state.length < 4 →
          ent.to_u32 e = (.error (.Short 4), popRead e 0)))) ∧
    ((ent.kind ≠ .Uint16 ∨ ent.len ≠ 1 → ent.to_u16 e = (.error .TypeError, e)) ∧
      (ent.kind = .Uint16 → ent.len = 1 → e.error = none →
        (2 ≤ e.current_encoding_state.length →
          ent.to_u16 e = (.ok (leNat (e.current_encoding_state.take 2)), popRead e 2)) ∧
        (e.current_encoding_state.length < 2 →
          ent.to_u16 e = (.error (.Short 2), popRead e 0)))) ∧
    ((ent.kind ≠ .Uint8 ∨ ent.len ≠ 1 → ent.to_u8 e = (.error .TypeError, e)) ∧
      (ent.kind = .Uint8 → ent.len = 1 → e.error = none →
        (1 ≤ e.current_encoding_state.length →
          ent.to_u8 e =
            (.ok ((e.current_encoding_state.take 1).getD 0 0), popRead e 1)) ∧
        (e.current_encoding_state.length < 1 →
          ent.to_u8 e = (.error (.Short 1), popRead e 0)))) ∧
    ((ent.kind ≠ .Double ∨ ent.len ≠ 1 → ent.to_f64 e = (.error .TypeError, e)) ∧
      (ent.kind = .Double → ent.len = 1 → e.error = none →
        (8 ≤ e.current_encoding_state.length →
          ent.to_f64 e = (.ok (leNat (e.current_encoding_state.take 8)), popRead e 8)) ∧
        (e.current_encoding_state.length < 8 →
          ent.to_f64 e = (.error (.Short 8), popRead e 0)))) ∧
    ((ent.kind ≠ .Bool ∨ ent.len ≠ 1 → ent.to_bool e = (.error .TypeError, e)) ∧
      (ent.kind = .Bool → ent.len = 1 → e.error = none →
        (1 ≤ e.current_encoding_state.length →
          ent.to_bool e =
            (.ok ((e.current_encoding_state.take 1).getD 0 0 ≠ 0), popRead e 1)) ∧
        (e.current_encoding_state.length < 1 →
          ent.to_bool e = (.error (.Short 1), popRead e 0)))) := by
  refine ⟨⟨?_, ?_⟩, ⟨?_, ?_⟩, ⟨?_, ?_⟩, ⟨?_, ?_⟩, ⟨?_, ?_⟩,
    ⟨?_, ?_⟩, ⟨?_, ?_⟩, ⟨?_, ?_⟩, ⟨?_, ?_⟩, ⟨?_, ?_⟩⟩
  · intro hne
    unfold EpeeEntry.to_i64
    rw [(to_primitive_spec ent .Int64 8 e).1 hne]
  · intro hk hl herr
    refine ⟨fun hwd => ?_, fun hwd => ?_⟩
    · unfold EpeeEntry.to_i64
      rw [((((to_primitive_spec ent .Int64 8 e).2 hk hl).2 herr).1 hwd)]
    · unfold EpeeEntry.to_i64
      rw [((((to_primitive_spec ent .Int64 8 e).2 hk hl).2 herr).2 hwd)]
  · intro hne
    unfold EpeeEntry.to_i32
    rw [(to_primitive_spec ent .Int32 4 e).1 hne]
  · intro hk hl herr
    refine ⟨fun hwd => ?_, fun hwd => ?_⟩
    · unfold EpeeEntry.to_i32
      rw [((((to_primitive_spec ent .Int32 4 e).2 hk hl).2 herr).1 hwd)]
    · unfold EpeeEntry.to_i32
      rw [((((to_primitive_spec ent .Int32 4 e).2 hk hl).2 herr).2 hwd)]
  · intro hne
    unfold EpeeEntry.to_i16
    rw [(to_primitive_spec ent .Int16 2 e).1 hne]
  · intro hk hl herr
    refine ⟨fun hwd => ?_, fun hwd => ?_⟩
    · unfold EpeeEntry.to_i16
      rw [((((to_primitive_spec ent .Int16 2 e).2 hk hl).2 herr).1 hwd)]
    · unfold EpeeEntry.to_i16
      rw [((((to_primitive_spec ent .Int16 2 e).2 hk hl).2 herr).2 hwd)]
  · intro hne
    unfold EpeeEntry.to_i8
    rw [(to_primitive_spec ent .Int8 1 e).1 hne]
  · intro hk hl herr
    refine ⟨fun hwd => ?_, fun hwd => ?_⟩
    · unfold EpeeEntry.to_i8
      rw [((((to_primitive_spec ent .Int8 1 e).2 hk hl).2 herr).1 hwd)]
    · unfold EpeeEntry.to_i8
      rw [((((to_primitive_spec ent .Int8 1 e).2 hk hl).2 herr).2 hwd)]
  · intro hne
    unfold EpeeEntry.to_u64
    rw [(to_primitive_spec ent .Uint64 8 e).1 hne]
  · intro hk hl herr
    refine ⟨fun hwd => ?_, fun hwd => ?_⟩
    · unfold EpeeEntry.to_u64
      rw [((((to_primitive_spec ent .Uint64 8 e).2 hk hl).2 herr).1 hwd)]
    · unfold EpeeEntry.to_u64
      rw [((((to_primitive_spec ent .Uint64 8 e).2 hk hl).2 herr).2 hwd)]
  · intro hne
    unfold EpeeEntry.to_u32
    rw [(to_primitive_spec ent .Uint32 4 e).1 hne]
  · intro hk hl herr
    refine ⟨fun hwd => ?_, fun hwd => ?_⟩
    · unfold EpeeEntry.to_u32
      rw [((((to_primitive_spec ent .Uint32 4 e).2 hk hl).2 herr).1 hwd)]
    · unfold EpeeEntry.to_u32
      rw [((((to_primitive_spec ent .Uint32 4 e).2 hk hl).2 herr).2 hwd)]
  · intro hne
    unfold EpeeEntry.to_u16
    rw [(to_primitive_spec ent .Uint16 2 e).1 hne]
  · intro hk hl herr
    refine ⟨fun hwd => ?_, fun hwd => ?_⟩
    · unfold EpeeEntry.to_u16
      rw [((((to_primitive_spec ent .Uint16 2 e).2 hk hl).2 herr).1 hwd)]
    · unfold EpeeEntry.to_u16
      rw [((((to_primitive_spec ent .Uint16 2 e).2 hk hl).2 herr).2 hwd)]
  · intro hne
    unfold EpeeEntry.to_u8
    rw [(to_primitive_spec ent .Uint8 1 e).1 hne]
  · intro hk hl herr
    refine ⟨fun hwd => ?_, fun hwd => ?_⟩
    · unfold EpeeEntry.to_u8
      rw [((((to_primitive_spec ent .Uint8 1 e).2 hk hl).2 herr).1 hwd)]
    · unfold EpeeEntry.to_u8
      rw [((((to_primitive_spec ent .Uint8 1 e).2 hk hl).2 herr).2 hwd)]
  · intro hne
    unfold EpeeEntry.to_f64
    rw [(to_primitive_spec ent .Double 8 e).1 hne]
  · intro hk hl herr
    refine ⟨fun hwd => ?_, fun hwd => ?_⟩
    · unfold EpeeEntry.to_f64
      rw [((((to_primitive_spec ent .Double 8 e).2 hk hl).2 herr).1 hwd)]
    · unfold EpeeEntry.to_f64
      rw [((((to_primitive_spec ent .Double 8 e).2 hk hl).2 herr).2 hwd)]
  · intro hne
    unfold EpeeEntry.to_bool
    rw [(to_primitive_spec ent .Bool 1 e).1 hne]
  · intro hk hl herr
    refine ⟨fun hwd => ?_, fun hwd => ?_⟩
    · unfold EpeeEntry.to_bool
      rw [((((to_primitive_spec ent .Bool 1 e).2 hk hl).2 herr).1 hwd)]
    · unfold EpeeEntry.to_bool
      rw [((((to_primitive_spec ent .Bool 1 e).2 hk hl).2 herr).2 hwd)]

/-- Witness for C6: `to_u8` on a one-byte source returns that byte. -/
theorem c6_typed_getters_witness :
    (⟨Ty.Uint8, 1⟩ : EpeeEntry).to_u8
        { current_encoding_state := [7], stack := Stack.root_object, error := none } =
      (.ok 7, popRead
        { current_encoding_state := [7], stack := Stack.root_object, error := none } 1) := by
  have h := ((((c6_typed_getters ⟨Ty.Uint8, 1⟩
      { current_encoding_state := [7], stack := Stack.root_object, error := none
      }).2.2.2.2.2.2.2.1).2 rfl rfl rfl).1 (by decide))
  rw [h]
  rfl

/-- The decoder used by the C2 counterexample: one pending object field
(`Entry`) against a source whose key length byte is zero. -/
def c2Epee : Epee :=
  { current_encoding_state := [0, 42], stack := entryStack, error := none }

/-- Counterexample to C2 as stated: `FieldIterator::next` hits the `EmptyKey`
fault yet stores nothing (the sticky error stays `none`), and a getter on a
decoder whose sticky error *is* set still returns `TypeError` — not the
stored error — when the entry's kind or length does not match. -/
theorem c2_fault_not_stored_counterexample :
    (FieldIterator.next 1 c2Epee).1 = some (.error .EmptyKey) ∧
    ((FieldIterator.next 1 c2Epee).2.2).error = none ∧
    (⟨Ty.Uint8, 2⟩ : EpeeEntry).to_u8 { c2Epee with error := some .InternalError } =
      (.error .TypeError, { c2Epee with error := some .InternalError }) := by
  refine ⟨by decide, by decide, by decide⟩

/-- C2 (corrected): the sticky error is stored only by the cursor-drop glue
(`dropSteps` records each `step` outcome); `fields`, `iterate` and the two
iterator `next`s check the field first and return the stored error with the
decoder unchanged; `to_primitive` and `to_str` check the entry's kind and
length *before* the stored error; and the non-drop operations do not store
the faults they encounter. -/
theorem c2_sticky_error_checked_not_stored (e : Epee) (er : EpeeError)
    (ent : EpeeEntry) (len : Nat) (kind reqK : Ty) (wd : Nat)
    (herr : e.error = some er) :
    FieldIterator.next len e = (some (.error er), len, e) ∧
    ArrayIterator.next kind len e = (some (.error er), len, e) ∧
    ent.fields e = (.error er, e) ∧
    ent.iterate e = (.error er, e) ∧
    (ent.kind = reqK → ent.len = 1 → ent.to_primitive reqK wd e = (.error er, e)) ∧
    (ent.kind ≠ reqK ∨ ent.len ≠ 1 → ent.to_primitive reqK wd e = (.error .TypeError, e)) ∧
    (ent.kind = .String → ent.len = 1 → ent.to_str e = (.error er, e)) ∧
    (ent.kind ≠ .String ∨ ent.len ≠ 1 → ent.to_str e = (.error .TypeError, e)) ∧
    (∀ (e2 : Epee) (er2 : EpeeError) (s2 : Stack) (enc2 : Bytes),
      e2.error = none →
      e2.stack.step e2.current_encoding_state = (.error er2, s2, enc2) →
      dropSteps 1 e2 =
        { current_encoding_state := enc2, stack := s2, error := some er2 }) ∧
    (∀ (e3 : Epee) (len3 : Nat), e3.error = none →
      ((FieldIterator.next len3 e3).2.2).error = none) := by
  refine ⟨?_, ?_, ?_, ?_, ?_, ?_, ?_, ?_, ?_, ?_⟩
  · unfold FieldIterator.next
    rw [herr]
  · unfold ArrayIterator.next
    rw [herr]
  · unfold EpeeEntry.fields
    rw [herr]
  · unfold EpeeEntry.iterate
    rw [herr]
  · intro hk hl
    exact ((to_primitive_spec ent reqK wd e).2 hk hl).1 er herr
  · intro hne
    exact (to_primitive_spec ent reqK wd e).1 hne
  · intro hk hl
    unfold EpeeEntry.to_str
    rw [if_neg (by push_neg; exact ⟨hk, hl⟩), herr]
  · intro hne
    unfold EpeeEntry.to_str
    rw [if_pos hne]
  · intro e2 er2 s2 enc2 herr2 hstep
    unfold dropSteps
    rw [herr2]
    simp only []
    rw [hstep]
    rfl
  · intro e3 len3 herr3
    unfold FieldIterator.next
    rw [herr3]
    simp only []
    rcases len3 with _ | m
    · exact herr3
    · rcases hss : e3.stack.single_step e3.current_encoding_state with ⟨r, s4, enc4⟩
      rcases r with er3 | o
      · rfl
      · rcases o with _ | res
        · rfl
        · rcases res with f | ⟨k4, ki4, l4⟩ | _
          all_goals rfl

/-- Witness for C2: a decoder with a stored `InternalError` returns it from
`FieldIterator::next` unchanged. -/
theorem c2_sticky_error_checked_not_stored_witness :
    FieldIterator.next 0
        { current_encoding_state := [], stack := Stack.root_object,
          error := some .InternalError } =
      (some (.error .InternalError), 0,
        { current_encoding_state := [], stack := Stack.root_object,
          error := some .InternalError }) :=
  (c2_sticky_error_checked_not_stored
    { current_encoding_state := [], stack := Stack.root_object,
      error := some .InternalError }
    .InternalError ⟨.Object, 1⟩ 0 .Bool .Uint8 1 rfl).1

/-! ### Claims C1 and C8 -/

/-- C1: with a clear sticky error and the peeked slot holding kind `t` with `m`
remaining instances, running the shared cursor-drop loop (`dropSteps`, the body
of the three `Drop` impls) for any `k ≤ m` steps without hitting a fault moves
the byte source exactly to where `k` reference full reads of `t`
(`RefSkipMany`) end — so a cursor dropped after any amount of partial
consumption leaves the decoder's stream position exactly where a full explicit
read of its remaining values would, with the slot decremented accordingly. -/
theorem c1_drop_reaches_reference_position (k : Nat) (e : Epee) (t : TypeOrEntry) (m : Nat)
    (herr : e.error = none) (hpeek : e.stack.peek = some (t, m)) (hk : k ≤ m)
    (hwf : e.stack.WF) (hok : (dropSteps k e).error = none) :
    RefSkipMany t k e.current_encoding_state (dropSteps k e).current_encoding_state ∧
    (k < m → (dropSteps k e).stack.peek = some (t, m - k) ∧
      (dropSteps k e).stack.depth = e.stack.depth) ∧
    (k = m → 1 ≤ m → (dropSteps k e).stack.depth = e.stack.depth - 1) := by
  obtain ⟨h1, h2, h3, h4⟩ := hwf
  exact dropSteps_sim k e t m herr hpeek hk h1 h2 h3
    (fun i hi => by
      have hlt : i < e.stack.amounts.length := by omega
      rw [getD_default_eq hlt 1 0]
      exact h4 i hi) hok

/-- The decoder used by the C1 witness: one pending `u8` slot with two
remaining instances over a three-byte source. -/
def c1DropEpee : Epee :=
  { current_encoding_state := [7, 9, 5]
    stack := { types := (List.replicate MAX_OBJECT_DEPTH TypeOrEntry.Entry).set 0 (.Type .Uint8)
               amounts := (List.replicate MAX_OBJECT_DEPTH 1).set 0 2
               depth := 1 }
    error := none }

/-- Witness for C1: dropping one of the two pending `u8`s advances past one
byte and leaves one instance scheduled. -/
theorem c1_drop_reaches_reference_position_witness :
    RefSkipMany (.Type .Uint8) 1 [7, 9, 5] (dropSteps 1 c1DropEpee).current_encoding_state ∧
    (dropSteps 1 c1DropEpee).stack.peek = some (.Type .Uint8, 1) := by
  have hwf : c1DropEpee.stack.WF := by
    unfold Stack.WF
    exact ⟨by decide, by decide, by decide, by decide⟩
  have h := c1_drop_reaches_reference_position 1 c1DropEpee (.Type .Uint8) 2 rfl
    (by decide) (by decide) hwf (by decide)
  exact ⟨h.1, ((h.2.1 (by decide)).1)⟩

/-- The stack left behind by the C8 witness's `single_step` run. -/
def c8Stack : Stack :=
  { types := ((List.replicate MAX_OBJECT_DEPTH TypeOrEntry.Entry).set 0
      (.Type .Object)).set 0 .Entry
    amounts := ((List.replicate MAX_OBJECT_DEPTH 1).set 0 1).set 0 1
    depth := 1 }

/-- C8: on a non-empty stack every successful `single_step` consumes at least
one byte from the source, and the `step` skip loop (`stepO`, the do-while of
`Stack::step` run with fuel `enc.length + 1`) always returns within that fuel
for every stack and finite input — so a skip either completes or fails inside
the invoking call. -/
theorem c8_single_step_consumes_and_step_terminates :
    (∀ (s : Stack) (enc : Bytes) (r : Option SingleStepResult) (s' : Stack) (enc' : Bytes),
      0 < s.depth → s.single_step enc = (.ok r, s', enc') → enc'.length < enc.length) ∧
    (∀ (s : Stack) (enc : Bytes), (s.stepO enc).isSome) :=
  ⟨fun _ _ _ _ _ hd h => single_step_ok_lt hd h, stepO_isSome⟩

/-- Witness for C8: one `single_step` on the root stack consumes the field
count byte, and the skip loop returns on the same input. -/
theorem c8_single_step_consumes_and_step_terminates_witness :
    ([9] : Bytes).length < ([4, 9] : Bytes).length ∧
    (Stack.root_object.stepO [4, 9]).isSome :=
  ⟨c8_single_step_consumes_and_step_terminates.1 Stack.root_object [4, 9]
      (some (.Object 1)) c8Stack [9] (by decide) (by decide),
    c8_single_step_consumes_and_step_terminates.2 Stack.root_object [4, 9]⟩
